import Mathlib

/-!
Shallow embedding of the order-book matching engine
(`src/order.cpp`, `src/price_level.cpp`, `src/order_book.cpp`).

Modelling conventions:

* `double` prices are modelled as `ℚ` (the source only compares and copies
  prices; no arithmetic on them is performed by the engine).
* `std::uint64_t` quantities, ids and counters are modelled as `Nat`.
  The engine's counters start at 1 and only ever increment, and fill
  arithmetic is bounded by order quantities, so 64-bit wraparound is not
  reachable in any execution the spec describes.
* `std::shared_ptr<Order>` aliasing: every working order is referenced by
  exactly one price-level FIFO queue and by the id index (spec invariant I1).
  We keep the unique mutable copy of each resting order inside its
  `PriceLevel.orders` queue, and the id index stores the `(id, side, price)`
  triple — exactly the fields the engine reads through the index's pointer
  (side and price are immutable after construction; the status flip done by
  `cancel_order` is applied to the queue copy before it is removed).
  The incoming order of a match is threaded by value, matching the source
  where the incoming `shared_ptr` is not yet stored in any container.
* Timestamps come from a wall clock and are advisory (spec §6); they are
  modelled as the constant 0.
* Where `Order::fill` throws (`InvalidArgument` / `IllegalState`), the
  model returns the order unchanged; those branches are marked below and
  are unreachable for engine-driven fills on live orders.
-/

inductive Side : Type
  | BUY
  | SELL
deriving DecidableEq, Repr

inductive OrderType : Type
  | MARKET
  | LIMIT
deriving DecidableEq, Repr

inductive OrderStatus : Type
  | NEW
  | PARTIALLY_FILLED
  | FILLED
  | CANCELLED
deriving DecidableEq, Repr

/-- Order (order.h / order.cpp).  Timestamp omitted (advisory wall clock). -/
structure Order : Type where
  order_id : Nat
  price : ℚ
  quantity : Nat
  filled_qty : Nat
  side : Side
  type : OrderType
  status : OrderStatus
deriving DecidableEq, Repr

def Order.remaining_qty (o : Order) : Nat :=
  o.quantity - o.filled_qty

def Order.is_fully_filled (o : Order) : Bool :=
  o.filled_qty == o.quantity

/-- Order::Order — the validating constructor.  `Except.error` models the
thrown `std::invalid_argument`. -/
def Order.construct (id : Nat) (price : ℚ) (qty : Nat) (side : Side) (type : OrderType) :
    Except String Order :=
  if qty = 0 then .error "Order quantity cannot be zero"
  else if price < 0 then .error "Order price cannot be negative"
  else if type = OrderType.LIMIT ∧ price ≤ 0 then .error "Limit order price must be positive"
  else .ok ⟨id, price, qty, 0, side, type, OrderStatus.NEW⟩

/-- Order::fill.  The two guard branches throw in the source
(`InvalidArgument` on over-fill, `IllegalState` on terminal status); the
engine never drives them on live orders, and the model leaves the order
unchanged there. -/
def Order.fill (o : Order) (qty : Nat) : Order :=
  if qty = 0 then o
  else if o.quantity < o.filled_qty + qty then o
  else if o.status = OrderStatus.CANCELLED ∨ o.status = OrderStatus.FILLED then o
  else
    { o with
      filled_qty := o.filled_qty + qty,
      status :=
        if o.filled_qty + qty = o.quantity then OrderStatus.FILLED
        else OrderStatus.PARTIALLY_FILLED }

/-- Order::cancel — idempotent on terminal states. -/
def Order.cancel (o : Order) : Order :=
  if o.status = OrderStatus.NEW ∨ o.status = OrderStatus.PARTIALLY_FILLED then
    { o with status := OrderStatus.CANCELLED }
  else o

/-- Trade (trade.h).  `timestamp` is the advisory clock, modelled as 0. -/
structure Trade : Type where
  trade_id : Nat
  buy_order_id : Nat
  sell_order_id : Nat
  price : ℚ
  quantity : Nat
  timestamp : Nat
deriving DecidableEq, Repr

/-- PriceLevel (price_level.h): FIFO queue sharing one price with a cached
aggregate quantity.  The queue holds order values (see header comment on
shared-pointer modelling); the source's null-pointer guards have no
counterpart because the model has no null orders. -/
structure PriceLevel : Type where
  price : ℚ
  total_quantity : Nat
  orders : List Order
deriving DecidableEq, Repr

/-- PriceLevel::add_order: append to the back, grow the aggregate. -/
def PriceLevel.add_order (L : PriceLevel) (o : Order) : PriceLevel :=
  { L with
    total_quantity := L.total_quantity + o.remaining_qty,
    orders := L.orders ++ [o] }

/-- Loop body of PriceLevel::remove_order: drain the queue into `kept`
(the temp queue), dropping every entry whose id matches and deducting its
remaining quantity from the aggregate as the scan goes. -/
def PriceLevel.removeLoop (target : Nat) :
    List Order → Bool → List Order → Nat → Bool × List Order × Nat
  | [], found, kept, tq => (found, kept, tq)
  | o :: rest, found, kept, tq =>
    if o.order_id = target then
      PriceLevel.removeLoop target rest true kept (tq - o.remaining_qty)
    else
      PriceLevel.removeLoop target rest found (kept ++ [o]) tq

/-- PriceLevel::remove_order. -/
def PriceLevel.remove_order (L : PriceLevel) (target : Nat) : Bool × PriceLevel :=
  let r := PriceLevel.removeLoop target L.orders false [] L.total_quantity
  (r.1, { L with orders := r.2.1, total_quantity := r.2.2 })

/-- PriceLevel::get_front_order. -/
def PriceLevel.get_front_order (L : PriceLevel) : Option Order :=
  L.orders.head?

/-- PriceLevel::pop_front_order. -/
def PriceLevel.pop_front_order (L : PriceLevel) : PriceLevel :=
  match L.orders with
  | [] => L
  | o :: rest =>
    { L with total_quantity := L.total_quantity - o.remaining_qty, orders := rest }

/-- PriceLevel::update_quantity.  Unsigned subtraction in the source;
`Nat` subtraction here (the engine only calls it with `old ≥ new` and a
consistent aggregate, where both agree). -/
def PriceLevel.update_quantity (L : PriceLevel) (old_remaining new_remaining : Nat) :
    PriceLevel :=
  if new_remaining ≤ old_remaining then
    { L with total_quantity := L.total_quantity - (old_remaining - new_remaining) }
  else
    { L with total_quantity := L.total_quantity + (new_remaining - old_remaining) }

/-- One entry of the engine's id index `order_map_`: the order id together
with the two immutable fields the engine reads through the mapped pointer. -/
structure IndexEntry : Type where
  order_id : Nat
  side : Side
  price : ℚ
deriving DecidableEq, Repr

/-- Result of the per-level matching loop
(OrderBook::process_matches_at_level). -/
structure PMResult : Type where
  orders : List Order
  tq : Nat
  index : List IndexEntry
  ntid : Nat
  inc : Order
  trades : List Trade
deriving DecidableEq, Repr

/-- OrderBook::process_matches_at_level, as structural recursion on the
level's queue.  Arguments mirror the source: the queue and cached
aggregate of the level being consumed, the id index, the trade-id
counter, the incoming order, and the accumulated trades.  The source's
null-front branch has no counterpart (no null orders in the model).
When the front resting order is only partially consumed the loop stops:
the source's next iteration finds `remaining_qty = 0` on the incoming
order and exits. -/
def pmLoop (trade_price : ℚ) :
    List Order → Nat → List IndexEntry → Nat → Order → List Trade → PMResult
  | [], tq, idx, ntid, inc, trades => ⟨[], tq, idx, ntid, inc, trades⟩
  | resting :: rest, tq, idx, ntid, inc, trades =>
    if inc.remaining_qty = 0 then ⟨resting :: rest, tq, idx, ntid, inc, trades⟩
    else
      let q := min inc.remaining_qty resting.remaining_qty
      let trade : Trade :=
        ⟨ntid,
         if inc.side = Side.BUY then inc.order_id else resting.order_id,
         if inc.side = Side.SELL then inc.order_id else resting.order_id,
         trade_price, q, 0⟩
      let old_rest := resting.remaining_qty
      let inc2 := inc.fill q
      let resting2 := resting.fill q
      let tq2 :=
        if resting2.remaining_qty ≤ old_rest then tq - (old_rest - resting2.remaining_qty)
        else tq + (resting2.remaining_qty - old_rest)
      if resting2.is_fully_filled then
        pmLoop trade_price rest (tq2 - resting2.remaining_qty)
          (idx.filter (fun e => e.order_id ≠ resting2.order_id)) (ntid + 1) inc2
          (trades ++ [trade])
      else
        ⟨resting2 :: rest, tq2, idx, ntid + 1, inc2, trades ++ [trade]⟩

/-- Result of the matching walk (OrderBook::match_order) over one ladder. -/
structure MOResult : Type where
  ladder : List PriceLevel
  index : List IndexEntry
  ntid : Nat
  inc : Order
  trades : List Trade
deriving DecidableEq, Repr

/-- The crossability test of OrderBook::match_order, against the best
opposite level's key. -/
def crossable (inc : Order) (best_price : ℚ) : Prop :=
  inc.type = OrderType.MARKET ∨
    (match inc.side with
     | Side.BUY => best_price ≤ inc.price
     | Side.SELL => inc.price ≤ best_price)

instance (inc : Order) (p : ℚ) : Decidable (crossable inc p) := by
  unfold crossable
  cases inc.side <;> simp only <;> infer_instance

/-- OrderBook::match_order's ladder walk: consume best levels while the
incoming order can cross, erasing levels that empty.  When a level
survives non-empty the walk stops: the source re-tests
`remaining_qty > 0`, which the per-level loop has driven to 0. -/
def moLoop : List PriceLevel → List IndexEntry → Nat → Order → List Trade → MOResult
  | [], idx, ntid, inc, trades => ⟨[], idx, ntid, inc, trades⟩
  | lvl :: restL, idx, ntid, inc, trades =>
    if inc.remaining_qty = 0 then ⟨lvl :: restL, idx, ntid, inc, trades⟩
    else if crossable inc lvl.price then
      let r := pmLoop lvl.price lvl.orders lvl.total_quantity idx ntid inc trades
      if r.orders.isEmpty then moLoop restL r.index r.ntid r.inc r.trades
      else ⟨⟨lvl.price, r.tq, r.orders⟩ :: restL, r.index, r.ntid, r.inc, r.trades⟩
    else ⟨lvl :: restL, idx, ntid, inc, trades⟩

/-- The whole-book state (order_book.h).  `bids` is kept sorted strictly
descending by price and `asks` strictly ascending, mirroring the two
`std::map` key orders; the best level is the head. -/
structure Book : Type where
  bids : List PriceLevel
  asks : List PriceLevel
  index : List IndexEntry
  next_order_id : Nat
  next_trade_id : Nat
  total_trades : Nat
  total_volume : Nat
deriving DecidableEq, Repr

/-- OrderBook::OrderBook. -/
def Book.init : Book :=
  ⟨[], [], [], 1, 1, 0, 0⟩

/-- Find-or-create insertion of a residual limit order into the bid
ladder (`bids_[price]` plus `PriceLevel::add_order`), keeping the
descending key order of the `std::map`. -/
def bidsInsert (o : Order) : List PriceLevel → List PriceLevel
  | [] => [PriceLevel.add_order ⟨o.price, 0, []⟩ o]
  | lvl :: rest =>
    if o.price = lvl.price then PriceLevel.add_order lvl o :: rest
    else if lvl.price < o.price then PriceLevel.add_order ⟨o.price, 0, []⟩ o :: lvl :: rest
    else lvl :: bidsInsert o rest

/-- Ask-side counterpart of `bidsInsert` (ascending key order). -/
def asksInsert (o : Order) : List PriceLevel → List PriceLevel
  | [] => [PriceLevel.add_order ⟨o.price, 0, []⟩ o]
  | lvl :: rest =>
    if o.price = lvl.price then PriceLevel.add_order lvl o :: rest
    else if o.price < lvl.price then PriceLevel.add_order ⟨o.price, 0, []⟩ o :: lvl :: rest
    else lvl :: asksInsert o rest

/-- OrderBook::add_order.  Returns (assigned id, trades, new book); id 0 is
the rejection sentinel. -/
def Book.add_order (b : Book) (price : ℚ) (quantity : Nat) (side : Side) (type : OrderType) :
    Nat × List Trade × Book :=
  if quantity = 0 then (0, [], b)
  else if price < 0 then (0, [], b)
  else if type = OrderType.LIMIT ∧ price ≤ 0 then (0, [], b)
  else
    let order : Order := ⟨b.next_order_id, price, quantity, 0, side, type, OrderStatus.NEW⟩
    let m : MOResult :=
      match side with
      | Side.BUY => moLoop b.asks b.index b.next_trade_id order []
      | Side.SELL => moLoop b.bids b.index b.next_trade_id order []
    let b1 : Book :=
      match side with
      | Side.BUY => { b with asks := m.ladder, index := m.index, next_trade_id := m.ntid }
      | Side.SELL => { b with bids := m.ladder, index := m.index, next_trade_id := m.ntid }
    let b2 : Book :=
      if m.inc.remaining_qty > 0 ∧ type = OrderType.LIMIT ∧
          m.inc.status ≠ OrderStatus.CANCELLED then
        match side with
        | Side.BUY =>
          { b1 with
            bids := bidsInsert m.inc b1.bids,
            index := b1.index ++ [⟨order.order_id, side, price⟩] }
        | Side.SELL =>
          { b1 with
            asks := asksInsert m.inc b1.asks,
            index := b1.index ++ [⟨order.order_id, side, price⟩] }
      else b1
    (order.order_id, m.trades,
     { b2 with
       next_order_id := b.next_order_id + 1,
       total_trades := b2.total_trades + m.trades.length,
       total_volume := b2.total_volume + (m.trades.map Trade.quantity).sum })

/-- OrderBook::add_market_order. -/
def Book.add_market_order (b : Book) (quantity : Nat) (side : Side) :
    List Trade × Book :=
  if quantity = 0 then ([], b)
  else
    let order : Order := ⟨b.next_order_id, 0, quantity, 0, side, OrderType.MARKET, OrderStatus.NEW⟩
    let m : MOResult :=
      match side with
      | Side.BUY => moLoop b.asks b.index b.next_trade_id order []
      | Side.SELL => moLoop b.bids b.index b.next_trade_id order []
    let b1 : Book :=
      match side with
      | Side.BUY => { b with asks := m.ladder, index := m.index, next_trade_id := m.ntid }
      | Side.SELL => { b with bids := m.ladder, index := m.index, next_trade_id := m.ntid }
    (m.trades,
     { b1 with
       next_order_id := b.next_order_id + 1,
       total_trades := b1.total_trades + m.trades.length,
       total_volume := b1.total_volume + (m.trades.map Trade.quantity).sum })

/-- order_map_.find. -/
def indexFind (idx : List IndexEntry) (order_id : Nat) : Option IndexEntry :=
  idx.find? (fun e => e.order_id == order_id)

/-- The level-removal part of OrderBook::cancel_order (lines 94-112): at
the ladder level keyed by the cancelled order's price, flip the status of
the mapped order (the source does this through the shared pointer before
touching the level) and run `PriceLevel::remove_order`; erase the level if
it empties.  Returns the level's removal report. -/
def ladderCancel (p : ℚ) (order_id : Nat) : List PriceLevel → Bool × List PriceLevel
  | [] => (false, [])
  | lvl :: rest =>
    if lvl.price = p then
      let lvl1 : PriceLevel :=
        { lvl with
          orders := lvl.orders.map (fun o => if o.order_id = order_id then o.cancel else o) }
      let r := PriceLevel.remove_order lvl1 order_id
      if r.2.orders.isEmpty then (r.1, rest) else (r.1, r.2 :: rest)
    else
      let r := ladderCancel p order_id rest
      (r.1, lvl :: r.2)

/-- OrderBook::cancel_order. -/
def Book.cancel_order (b : Book) (order_id : Nat) : Bool × Book :=
  match indexFind b.index order_id with
  | none => (false, b)
  | some e =>
    match e.side with
    | Side.BUY =>
      let r := ladderCancel e.price order_id b.bids
      (r.1,
       { b with
         bids := r.2,
         index := b.index.filter (fun x => x.order_id ≠ order_id) })
    | Side.SELL =>
      let r := ladderCancel e.price order_id b.asks
      (r.1,
       { b with
         asks := r.2,
         index := b.index.filter (fun x => x.order_id ≠ order_id) })

/-- OrderBook::clear. -/
def Book.clear (b : Book) : Book :=
  { b with bids := [], asks := [], index := [], total_trades := 0, total_volume := 0 }

/-- OrderBook::get_best_bid. -/
def Book.get_best_bid (b : Book) : Option ℚ :=
  b.bids.head?.map PriceLevel.price

/-- OrderBook::get_best_ask. -/
def Book.get_best_ask (b : Book) : Option ℚ :=
  b.asks.head?.map PriceLevel.price

/-! ## Specification predicates and the operation trace -/

/-- A working order: status live and strictly unfilled, as every order
resting in a queue is. -/
def Order.live (o : Order) : Prop :=
  (o.status = OrderStatus.NEW ∨ o.status = OrderStatus.PARTIALLY_FILLED) ∧
    o.filled_qty < o.quantity

/-- The incoming order during a matching walk: never over-filled, and
fillable while any quantity remains. -/
def Order.incOK (o : Order) : Prop :=
  o.filled_qty ≤ o.quantity ∧
    (o.remaining_qty ≠ 0 →
      o.status ≠ OrderStatus.CANCELLED ∧ o.status ≠ OrderStatus.FILLED)

/-- Spec invariant I3: the cached aggregate equals the queue sum. -/
def PriceLevel.consistent (L : PriceLevel) : Prop :=
  L.total_quantity = (L.orders.map Order.remaining_qty).sum

/-- All orders queued at a level belong to side `s`, carry the level's
price, and are live (spec invariant I1 restricted to one level). -/
def PriceLevel.aligned (s : Side) (L : PriceLevel) : Prop :=
  ∀ o ∈ L.orders, o.side = s ∧ o.price = L.price ∧ o.live

/-- The opposite side. -/
def Side.opp : Side → Side
  | Side.BUY => Side.SELL
  | Side.SELL => Side.BUY

/-- How one trade record is built from the two participating orders as
they stood at the moment of the match (spec §3 Trade, §4.4.1). -/
def TradeFromMatch (t : Trade) (incB restB : Order) : Prop :=
  t.price = restB.price ∧
  t.quantity = min incB.remaining_qty restB.remaining_qty ∧
  t.buy_order_id = (if incB.side = Side.BUY then incB.order_id else restB.order_id) ∧
  t.sell_order_id = (if incB.side = Side.SELL then incB.order_id else restB.order_id) ∧
  (incB.fill t.quantity).filled_qty = incB.filled_qty + t.quantity ∧
  (restB.fill t.quantity).filled_qty = restB.filled_qty + t.quantity

/-- Spec invariant I4 / P1: if both sides are non-empty the best bid is
strictly below the best ask. -/
def Book.uncrossed (b : Book) : Prop :=
  ∀ lb la, b.bids.head? = some lb → b.asks.head? = some la → lb.price < la.price

/-- One external mutation of the engine. -/
inductive Op : Type
  | add (price : ℚ) (quantity : Nat) (side : Side) (type : OrderType)
  | market (quantity : Nat) (side : Side)
  | cancel (order_id : Nat)
  | clear
deriving DecidableEq, Repr

/-- Whether an operation consumes an order id: an `add_order` that passes
parameter validation, or a nonzero-quantity `add_market_order`.  The
engine's validation depends only on the call's arguments. -/
def Op.issues : Op → Bool
  | Op.add p q _ ty => !(decide (q = 0 ∨ p < 0 ∨ (ty = OrderType.LIMIT ∧ p ≤ 0)))
  | Op.market q _ => !(decide (q = 0))
  | Op.cancel _ => false
  | Op.clear => false

/-- The outcome of applying one operation: the new book, the trades it
produced, and the order ids it issued. -/
structure RunResult : Type where
  book : Book
  trades : List Trade
  oids : List Nat
deriving DecidableEq, Repr

/-- Apply one operation to the book. -/
def Book.applyOp (b : Book) : Op → RunResult
  | Op.add p q s ty =>
    let r := b.add_order p q s ty
    ⟨r.2.2, r.2.1, if r.1 = 0 then [] else [r.1]⟩
  | Op.market q s =>
    let r := b.add_market_order q s
    ⟨r.2, r.1, if q = 0 then [] else [b.next_order_id]⟩
  | Op.cancel id => ⟨(b.cancel_order id).2, [], []⟩
  | Op.clear => ⟨b.clear, [], []⟩

/-- Run a sequence of operations, concatenating produced trades and
issued order ids in call order. -/
def Book.runOps (b : Book) : List Op → RunResult
  | [] => ⟨b, [], []⟩
  | op :: ops =>
    let r := b.applyOp op
    let r2 := r.book.runOps ops
    ⟨r2.book, r.trades ++ r2.trades, r.oids ++ r2.oids⟩

/-! ## Basic lemmas about Order.fill -/

theorem Order.fill_order_id (o : Order) (q : Nat) : (o.fill q).order_id = o.order_id := by
  unfold Order.fill
  split
  · rfl
  split
  · rfl
  split
  · rfl
  rfl

theorem Order.fill_side (o : Order) (q : Nat) : (o.fill q).side = o.side := by
  unfold Order.fill
  split
  · rfl
  split
  · rfl
  split
  · rfl
  rfl

theorem Order.fill_price (o : Order) (q : Nat) : (o.fill q).price = o.price := by
  unfold Order.fill
  split
  · rfl
  split
  · rfl
  split
  · rfl
  rfl

theorem Order.fill_type (o : Order) (q : Nat) : (o.fill q).type = o.type := by
  unfold Order.fill
  split
  · rfl
  split
  · rfl
  split
  · rfl
  rfl

theorem Order.fill_quantity (o : Order) (q : Nat) : (o.fill q).quantity = o.quantity := by
  unfold Order.fill
  split
  · rfl
  split
  · rfl
  split
  · rfl
  rfl

/-- Successful fill: all guards pass, so the fill amount is credited and
the status moves to FILLED or PARTIALLY_FILLED. -/
theorem Order.fill_spec (o : Order) (q : Nat) (hq : q ≠ 0)
    (hover : o.filled_qty + q ≤ o.quantity)
    (hstat : ¬(o.status = OrderStatus.CANCELLED ∨ o.status = OrderStatus.FILLED)) :
    o.fill q =
      { o with
        filled_qty := o.filled_qty + q,
        status :=
          if o.filled_qty + q = o.quantity then OrderStatus.FILLED
          else OrderStatus.PARTIALLY_FILLED } := by
  unfold Order.fill
  rw [if_neg hq, if_neg (by omega), if_neg hstat]

/-- C6: `add_order` returns the sentinel 0 with no state change and no
trades exactly when `quantity = 0`, or `price < 0`, or the order is a
LIMIT order with `price ≤ 0`; on every non-rejected call the parameters
reach `Order` construction and construction succeeds (no exception
escapes), and the returned id is the assigned `next_order_id ≥ 1`. -/
theorem C6_rejection_sentinel (b : Book) (p : ℚ) (q : Nat) (s : Side) (ty : OrderType)
    (hid : 1 ≤ b.next_order_id) :
    (b.add_order p q s ty = (0, [], b) ↔
      (q = 0 ∨ p < 0 ∨ (ty = OrderType.LIMIT ∧ p ≤ 0))) ∧
    (¬(q = 0 ∨ p < 0 ∨ (ty = OrderType.LIMIT ∧ p ≤ 0)) →
      Order.construct b.next_order_id p q s ty =
        Except.ok ⟨b.next_order_id, p, q, 0, s, ty, OrderStatus.NEW⟩ ∧
      (b.add_order p q s ty).1 = b.next_order_id ∧
      1 ≤ (b.add_order p q s ty).1) := by
  by_cases h1 : q = 0
  · constructor
    · simp [Book.add_order, h1]
    · intro h
      exact absurd (Or.inl h1) h
  by_cases h2 : p < 0
  · constructor
    · simp [Book.add_order, h1, h2]
    · intro h
      exact absurd (Or.inr (Or.inl h2)) h
  by_cases h3 : ty = OrderType.LIMIT ∧ p ≤ 0
  · constructor
    · simp [Book.add_order, h1, h2, h3]
    · intro h
      exact absurd (Or.inr (Or.inr h3)) h
  have hfst : (b.add_order p q s ty).1 = b.next_order_id := by
    simp only [Book.add_order, if_neg h1, if_neg h2, if_neg h3]
  constructor
  · constructor
    · intro h
      have : (b.add_order p q s ty).1 = 0 := by rw [h]
      rw [hfst] at this
      omega
    · intro h
      rcases h with h | h | h
      · exact absurd h h1
      · exact absurd h h2
      · exact absurd h h3
  · intro _
    refine ⟨?_, hfst, ?_⟩
    · unfold Order.construct
      rw [if_neg h1, if_neg h2, if_neg h3]
    · rw [hfst]; exact hid

/-- Witness for C6 at a concrete accepted call on the fresh book. -/
theorem C6_witness :
    (Book.init.add_order 100 5 Side.BUY OrderType.LIMIT = (0, [], Book.init) ↔
      (5 = 0 ∨ (100 : ℚ) < 0 ∨ (OrderType.LIMIT = OrderType.LIMIT ∧ (100 : ℚ) ≤ 0))) :=
  (C6_rejection_sentinel Book.init 100 5 Side.BUY OrderType.LIMIT (by decide)).1

/-! ## Trade-id issuance through the matching loops -/

theorem pmLoop_tid (price : ℚ) (orders : List Order) (tq : Nat) (idx : List IndexEntry)
    (ntid : Nat) (inc : Order) (trades : List Trade) :
    ∃ new : List Trade,
      (pmLoop price orders tq idx ntid inc trades).trades = trades ++ new ∧
      (pmLoop price orders tq idx ntid inc trades).ntid = ntid + new.length ∧
      new.map Trade.trade_id = List.range' ntid new.length := by
  induction orders generalizing tq idx ntid inc trades with
  | nil => exact ⟨[], by simp [pmLoop]⟩
  | cons resting rest IH =>
    by_cases h0 : inc.remaining_qty = 0
    · exact ⟨[], by simp [pmLoop, h0]⟩
    simp only [pmLoop, if_neg h0]
    split
    · obtain ⟨new', h1, h2, h3⟩ := IH _ _ _ _ _
      refine ⟨⟨ntid, if inc.side = Side.BUY then inc.order_id else resting.order_id,
        if inc.side = Side.SELL then inc.order_id else resting.order_id,
        price, min inc.remaining_qty resting.remaining_qty, 0⟩ :: new', ?_, ?_, ?_⟩
      · rw [h1]
        simp
      · rw [h2]
        simp only [List.length_cons]
        omega
      · simp only [List.map_cons, h3, List.length_cons]
        rfl
    · refine ⟨[⟨ntid, if inc.side = Side.BUY then inc.order_id else resting.order_id,
        if inc.side = Side.SELL then inc.order_id else resting.order_id,
        price, min inc.remaining_qty resting.remaining_qty, 0⟩], ?_, ?_, ?_⟩
      · rfl
      · rfl
      · rfl

theorem moLoop_tid (ladder : List PriceLevel) (idx : List IndexEntry) (ntid : Nat)
    (inc : Order) (trades : List Trade) :
    ∃ new : List Trade,
      (moLoop ladder idx ntid inc trades).trades = trades ++ new ∧
      (moLoop ladder idx ntid inc trades).ntid = ntid + new.length ∧
      new.map Trade.trade_id = List.range' ntid new.length := by
  induction ladder generalizing idx ntid inc trades with
  | nil => exact ⟨[], by simp [moLoop]⟩
  | cons lvl restL IH =>
    by_cases h0 : inc.remaining_qty = 0
    · exact ⟨[], by simp [moLoop, h0]⟩
    by_cases hc : crossable inc lvl.price
    · simp only [moLoop, if_neg h0, if_pos hc]
      obtain ⟨pmnew, hp1, hp2, hp3⟩ :=
        pmLoop_tid lvl.price lvl.orders lvl.total_quantity idx ntid inc trades
      split
      · obtain ⟨new', h1, h2, h3⟩ :=
          IH (pmLoop lvl.price lvl.orders lvl.total_quantity idx ntid inc trades).index
            (pmLoop lvl.price lvl.orders lvl.total_quantity idx ntid inc trades).ntid
            (pmLoop lvl.price lvl.orders lvl.total_quantity idx ntid inc trades).inc
            (pmLoop lvl.price lvl.orders lvl.total_quantity idx ntid inc trades).trades
        rw [hp2] at h3
        refine ⟨pmnew ++ new', ?_, ?_, ?_⟩
        · rw [h1, hp1]
          simp
        · rw [h2, hp2]
          simp only [List.length_append]
          omega
        · rw [List.map_append, hp3, h3, List.length_append]
          have := List.range'_append ntid pmnew.length new'.length 1
          simpa [Nat.add_comm] using this
      · exact ⟨pmnew, hp1, hp2, hp3⟩
    · exact ⟨[], by simp [moLoop, h0, hc]⟩

/-! ## Per-operation id issuance -/

theorem add_order_rejected (b : Book) (p : ℚ) (q : Nat) (s : Side) (ty : OrderType)
    (h : q = 0 ∨ p < 0 ∨ (ty = OrderType.LIMIT ∧ p ≤ 0)) :
    b.add_order p q s ty = (0, [], b) := by
  by_cases h1 : q = 0
  · simp [Book.add_order, h1]
  by_cases h2 : p < 0
  · simp [Book.add_order, h1, h2]
  by_cases h3 : ty = OrderType.LIMIT ∧ p ≤ 0
  · simp [Book.add_order, h1, h2, h3]
  tauto

theorem add_order_accepted_ids (b : Book) (p : ℚ) (q : Nat) (s : Side) (ty : OrderType)
    (h : ¬(q = 0 ∨ p < 0 ∨ (ty = OrderType.LIMIT ∧ p ≤ 0))) :
    (b.add_order p q s ty).1 = b.next_order_id ∧
    (b.add_order p q s ty).2.2.next_order_id = b.next_order_id + 1 ∧
    (b.add_order p q s ty).2.2.next_trade_id =
      b.next_trade_id + (b.add_order p q s ty).2.1.length ∧
    (b.add_order p q s ty).2.1.map Trade.trade_id =
      List.range' b.next_trade_id (b.add_order p q s ty).2.1.length := by
  push_neg at h
  obtain ⟨h1, h2, h3⟩ := h
  cases s with
  | BUY =>
    obtain ⟨new, m1, m2, m3⟩ :=
      moLoop_tid b.asks b.index b.next_trade_id
        ⟨b.next_order_id, p, q, 0, Side.BUY, ty, OrderStatus.NEW⟩ []
    have hp2 : ¬ p < 0 := not_lt.mpr h2
    have hp3 : ¬(ty = OrderType.LIMIT ∧ p ≤ 0) := by
      rintro ⟨ha, hb2⟩
      exact absurd hb2 (not_le.mpr (h3 ha))
    simp only [Book.add_order, if_neg h1, if_neg hp2, if_neg hp3]
    refine ⟨trivial, trivial, ?_, ?_⟩
    · rw [m1]
      split <;> simp [m2]
    · rw [m1]
      simp only [List.nil_append]
      exact m3
  | SELL =>
    obtain ⟨new, m1, m2, m3⟩ :=
      moLoop_tid b.bids b.index b.next_trade_id
        ⟨b.next_order_id, p, q, 0, Side.SELL, ty, OrderStatus.NEW⟩ []
    have hp2 : ¬ p < 0 := not_lt.mpr h2
    have hp3 : ¬(ty = OrderType.LIMIT ∧ p ≤ 0) := by
      rintro ⟨ha, hb2⟩
      exact absurd hb2 (not_le.mpr (h3 ha))
    simp only [Book.add_order, if_neg h1, if_neg hp2, if_neg hp3]
    refine ⟨trivial, trivial, ?_, ?_⟩
    · rw [m1]
      split <;> simp [m2]
    · rw [m1]
      simp only [List.nil_append]
      exact m3

theorem add_market_order_zero (b : Book) (s : Side) :
    b.add_market_order 0 s = ([], b) := by
  simp [Book.add_market_order]

theorem add_market_order_ids (b : Book) (q : Nat) (s : Side) (hq : q ≠ 0) :
    (b.add_market_order q s).2.next_order_id = b.next_order_id + 1 ∧
    (b.add_market_order q s).2.next_trade_id =
      b.next_trade_id + (b.add_market_order q s).1.length ∧
    (b.add_market_order q s).1.map Trade.trade_id =
      List.range' b.next_trade_id (b.add_market_order q s).1.length := by
  cases s with
  | BUY =>
    obtain ⟨new, m1, m2, m3⟩ :=
      moLoop_tid b.asks b.index b.next_trade_id
        ⟨b.next_order_id, 0, q, 0, Side.BUY, OrderType.MARKET, OrderStatus.NEW⟩ []
    simp only [Book.add_market_order, if_neg hq]
    refine ⟨trivial, ?_, ?_⟩
    · rw [m1]
      simp [m2]
    · rw [m1]
      simp only [List.nil_append]
      exact m3
  | SELL =>
    obtain ⟨new, m1, m2, m3⟩ :=
      moLoop_tid b.bids b.index b.next_trade_id
        ⟨b.next_order_id, 0, q, 0, Side.SELL, OrderType.MARKET, OrderStatus.NEW⟩ []
    simp only [Book.add_market_order, if_neg hq]
    refine ⟨trivial, ?_, ?_⟩
    · rw [m1]
      simp [m2]
    · rw [m1]
      simp only [List.nil_append]
      exact m3

theorem cancel_order_counters (b : Book) (oid : Nat) :
    (b.cancel_order oid).2.next_order_id = b.next_order_id ∧
    (b.cancel_order oid).2.next_trade_id = b.next_trade_id ∧
    (b.cancel_order oid).2.total_trades = b.total_trades ∧
    (b.cancel_order oid).2.total_volume = b.total_volume := by
  rcases h : indexFind b.index oid with _ | e
  · simp [Book.cancel_order, h]
  · cases hs : e.side <;> simp [Book.cancel_order, h, hs]

theorem clear_spec (b : Book) :
    b.clear.bids = [] ∧ b.clear.asks = [] ∧ b.clear.index = [] ∧
    b.clear.total_trades = 0 ∧ b.clear.total_volume = 0 ∧
    b.clear.next_order_id = b.next_order_id ∧
    b.clear.next_trade_id = b.next_trade_id :=
  ⟨rfl, rfl, rfl, rfl, rfl, rfl, rfl⟩

/-- Strictly increasing runs of consecutive naturals. -/
theorem chain_lt_range' (s n : Nat) : List.Chain' (· < ·) (List.range' s n) := by
  rw [List.chain'_iff_pairwise]
  exact List.pairwise_lt_range' s n 1 (by omega)

/-- Ids issued over any run of operations: order ids are the consecutive
block starting at the entry `next_order_id` (one per issuing operation),
and trade ids are the consecutive block starting at the entry
`next_trade_id` (one per trade). -/
theorem runOps_ids (ops : List Op) (b : Book) (hb : 1 ≤ b.next_order_id) :
    (b.runOps ops).oids = List.range' b.next_order_id (ops.countP Op.issues) ∧
    (b.runOps ops).book.next_order_id = b.next_order_id + ops.countP Op.issues ∧
    (b.runOps ops).trades.map Trade.trade_id =
      List.range' b.next_trade_id (b.runOps ops).trades.length ∧
    (b.runOps ops).book.next_trade_id =
      b.next_trade_id + (b.runOps ops).trades.length := by
  induction ops generalizing b with
  | nil => simp [Book.runOps]
  | cons op ops IH =>
    have step :
        (b.applyOp op).oids =
          List.range' b.next_order_id (if Op.issues op then 1 else 0) ∧
        (b.applyOp op).book.next_order_id =
          b.next_order_id + (if Op.issues op then 1 else 0) ∧
        (b.applyOp op).trades.map Trade.trade_id =
          List.range' b.next_trade_id (b.applyOp op).trades.length ∧
        (b.applyOp op).book.next_trade_id =
          b.next_trade_id + (b.applyOp op).trades.length := by
      cases op with
      | add p q s ty =>
        by_cases hr : q = 0 ∨ p < 0 ∨ (ty = OrderType.LIMIT ∧ p ≤ 0)
        · have hrej := add_order_rejected b p q s ty hr
          have hiss : Op.issues (Op.add p q s ty) = false := by
            simp [Op.issues, hr]
          simp [Book.applyOp, hrej, hiss]
        · obtain ⟨a1, a2, a3, a4⟩ := add_order_accepted_ids b p q s ty hr
          have hiss : Op.issues (Op.add p q s ty) = true := by
            simp [Op.issues, hr]
          have hne : (b.add_order p q s ty).1 ≠ 0 := by
            rw [a1]; omega
          simp only [Book.applyOp, hiss, if_neg hne, if_true]
          exact ⟨by rw [a1]; rfl, by rw [a2], a4, a3⟩
      | market q s =>
        by_cases hq : q = 0
        · subst hq
          simp [Book.applyOp, add_market_order_zero, Op.issues]
        · obtain ⟨a1, a2, a3⟩ := add_market_order_ids b q s hq
          have hiss : Op.issues (Op.market q s) = true := by
            simp [Op.issues, hq]
          simp only [Book.applyOp, hiss, if_neg hq, if_true]
          exact ⟨rfl, by rw [a1], a3, a2⟩
      | cancel oid =>
        obtain ⟨c1, c2, _, _⟩ := cancel_order_counters b oid
        simp [Book.applyOp, Op.issues, c1, c2]
      | clear =>
        simp [Book.applyOp, Op.issues, Book.clear]
    obtain ⟨s1, s2, s3, s4⟩ := step
    have hb2 : 1 ≤ (b.applyOp op).book.next_order_id := by
      rw [s2]; omega
    obtain ⟨i1, i2, i3, i4⟩ := IH (b.applyOp op).book hb2
    have hrun :
        b.runOps (op :: ops) =
          ⟨((b.applyOp op).book.runOps ops).book,
           (b.applyOp op).trades ++ ((b.applyOp op).book.runOps ops).trades,
           (b.applyOp op).oids ++ ((b.applyOp op).book.runOps ops).oids⟩ := rfl
    rw [hrun]
    refine ⟨?_, ?_, ?_, ?_⟩
    · show (b.applyOp op).oids ++ ((b.applyOp op).book.runOps ops).oids = _
      rw [s1, i1, s2, List.countP_cons]
      by_cases hi : Op.issues op = true
      · rw [if_pos hi]
        simpa using List.range'_append b.next_order_id 1 (List.countP Op.issues ops) 1
      · rw [if_neg hi]
        simp
    · show ((b.applyOp op).book.runOps ops).book.next_order_id = _
      rw [i2, s2, List.countP_cons]
      by_cases hi : Op.issues op = true
      · rw [if_pos hi]
        omega
      · rw [if_neg hi]
        omega
    · show ((b.applyOp op).trades ++ ((b.applyOp op).book.runOps ops).trades).map Trade.trade_id = _
      rw [List.map_append, s3, i3, s4, List.length_append]
      have := List.range'_append b.next_trade_id (b.applyOp op).trades.length
        ((b.applyOp op).book.runOps ops).trades.length 1
      simpa [Nat.add_comm] using this
    · show ((b.applyOp op).book.runOps ops).book.next_trade_id = _
      rw [i4, s4, List.length_append]
      omega

/-- C8: clear() empties both ladders and the id index and resets
total_trades and total_volume to 0 while leaving next_order_id and
next_trade_id unchanged; consequently order ids and trade ids are
strictly increasing over any operation sequence, clears included. -/
theorem C8_clear_resets_stats_not_ids (b : Book) (ops : List Op)
    (hb : 1 ≤ b.next_order_id) :
    b.clear.bids = [] ∧ b.clear.asks = [] ∧ b.clear.index = [] ∧
    b.clear.total_trades = 0 ∧ b.clear.total_volume = 0 ∧
    b.clear.next_order_id = b.next_order_id ∧
    b.clear.next_trade_id = b.next_trade_id ∧
    List.Chain' (· < ·) (b.runOps ops).oids ∧
    List.Chain' (· < ·) ((b.runOps ops).trades.map Trade.trade_id) := by
  obtain ⟨i1, _, i3, _⟩ := runOps_ids ops b hb
  exact ⟨rfl, rfl, rfl, rfl, rfl, rfl, rfl,
    by rw [i1]; exact chain_lt_range' _ _,
    by rw [i3]; exact chain_lt_range' _ _⟩

/-- Witness for C8: a concrete run with a clear between two accepted adds. -/
theorem C8_witness :
    Book.init.clear.bids = [] ∧ Book.init.clear.asks = [] ∧ Book.init.clear.index = [] ∧
    Book.init.clear.total_trades = 0 ∧ Book.init.clear.total_volume = 0 ∧
    Book.init.clear.next_order_id = Book.init.next_order_id ∧
    Book.init.clear.next_trade_id = Book.init.next_trade_id ∧
    List.Chain' (· < ·)
      (Book.init.runOps
        [Op.add 100 5 Side.BUY OrderType.LIMIT, Op.clear,
         Op.add 100 5 Side.SELL OrderType.LIMIT]).oids ∧
    List.Chain' (· < ·)
      ((Book.init.runOps
        [Op.add 100 5 Side.BUY OrderType.LIMIT, Op.clear,
         Op.add 100 5 Side.SELL OrderType.LIMIT]).trades.map Trade.trade_id) :=
  C8_clear_resets_stats_not_ids Book.init
    [Op.add 100 5 Side.BUY OrderType.LIMIT, Op.clear,
     Op.add 100 5 Side.SELL OrderType.LIMIT] (by decide)

/-- C10: order ids are issued consecutively — an accepted add_order
returns next_order_id and bumps it by exactly one, a rejected one leaves
everything unchanged, a nonzero market order consumes one id and a
zero-quantity one none — and trade ids are issued consecutively, one per
trade; from the initial book both are the sequences 1, 2, 3, ... . -/
theorem C10_consecutive_issuance (b : Book) (p : ℚ) (q : Nat) (s : Side) (ty : OrderType)
    (ops : List Op) :
    ((q = 0 ∨ p < 0 ∨ (ty = OrderType.LIMIT ∧ p ≤ 0)) →
      b.add_order p q s ty = (0, [], b)) ∧
    (¬(q = 0 ∨ p < 0 ∨ (ty = OrderType.LIMIT ∧ p ≤ 0)) →
      (b.add_order p q s ty).1 = b.next_order_id ∧
      (b.add_order p q s ty).2.2.next_order_id = b.next_order_id + 1) ∧
    b.add_market_order 0 s = ([], b) ∧
    (q ≠ 0 → (b.add_market_order q s).2.next_order_id = b.next_order_id + 1) ∧
    (b.add_order p q s ty).2.1.map Trade.trade_id =
      List.range' b.next_trade_id (b.add_order p q s ty).2.1.length ∧
    (b.add_order p q s ty).2.2.next_trade_id =
      b.next_trade_id + (b.add_order p q s ty).2.1.length ∧
    (q ≠ 0 → (b.add_market_order q s).1.map Trade.trade_id =
      List.range' b.next_trade_id (b.add_market_order q s).1.length) ∧
    (Book.init.runOps ops).oids = List.range' 1 (ops.countP Op.issues) ∧
    (Book.init.runOps ops).trades.map Trade.trade_id =
      List.range' 1 (Book.init.runOps ops).trades.length := by
  obtain ⟨r1, _, r3, _⟩ := runOps_ids ops Book.init (by decide)
  refine ⟨fun h => add_order_rejected b p q s ty h, fun h => ?_,
    add_market_order_zero b s, fun hq => ?_, ?_, ?_, fun hq => ?_, ?_, ?_⟩
  · obtain ⟨a1, a2, _, _⟩ := add_order_accepted_ids b p q s ty h
    exact ⟨a1, a2⟩
  · exact (add_market_order_ids b q s hq).1
  · by_cases hr : q = 0 ∨ p < 0 ∨ (ty = OrderType.LIMIT ∧ p ≤ 0)
    · rw [add_order_rejected b p q s ty hr]
      rfl
    · exact (add_order_accepted_ids b p q s ty hr).2.2.2
  · by_cases hr : q = 0 ∨ p < 0 ∨ (ty = OrderType.LIMIT ∧ p ≤ 0)
    · rw [add_order_rejected b p q s ty hr]
      rfl
    · exact (add_order_accepted_ids b p q s ty hr).2.2.1
  · exact (add_market_order_ids b q s hq).2.2
  · exact r1
  · exact r3

/-- Witness for C10 at concrete inputs. -/
theorem C10_witness :
    (((5 : Nat) = 0 ∨ (100 : ℚ) < 0 ∨ (OrderType.LIMIT = OrderType.LIMIT ∧ (100 : ℚ) ≤ 0)) →
      Book.init.add_order 100 5 Side.BUY OrderType.LIMIT = (0, [], Book.init)) ∧
    (¬((5 : Nat) = 0 ∨ (100 : ℚ) < 0 ∨ (OrderType.LIMIT = OrderType.LIMIT ∧ (100 : ℚ) ≤ 0)) →
      (Book.init.add_order 100 5 Side.BUY OrderType.LIMIT).1 = Book.init.next_order_id ∧
      (Book.init.add_order 100 5 Side.BUY OrderType.LIMIT).2.2.next_order_id =
        Book.init.next_order_id + 1) ∧
    Book.init.add_market_order 0 Side.BUY = ([], Book.init) ∧
    ((5 : Nat) ≠ 0 →
      (Book.init.add_market_order 5 Side.BUY).2.next_order_id = Book.init.next_order_id + 1) ∧
    (Book.init.add_order 100 5 Side.BUY OrderType.LIMIT).2.1.map Trade.trade_id =
      List.range' Book.init.next_trade_id
        (Book.init.add_order 100 5 Side.BUY OrderType.LIMIT).2.1.length ∧
    (Book.init.add_order 100 5 Side.BUY OrderType.LIMIT).2.2.next_trade_id =
      Book.init.next_trade_id +
        (Book.init.add_order 100 5 Side.BUY OrderType.LIMIT).2.1.length ∧
    ((5 : Nat) ≠ 0 →
      (Book.init.add_market_order 5 Side.BUY).1.map Trade.trade_id =
        List.range' Book.init.next_trade_id (Book.init.add_market_order 5 Side.BUY).1.length) ∧
    (Book.init.runOps [Op.add 100 5 Side.BUY OrderType.LIMIT]).oids =
      List.range' 1 ([Op.add 100 5 Side.BUY OrderType.LIMIT].countP Op.issues) ∧
    (Book.init.runOps [Op.add 100 5 Side.BUY OrderType.LIMIT]).trades.map Trade.trade_id =
      List.range' 1 (Book.init.runOps [Op.add 100 5 Side.BUY OrderType.LIMIT]).trades.length :=
  C10_consecutive_issuance Book.init 100 5 Side.BUY OrderType.LIMIT
    [Op.add 100 5 Side.BUY OrderType.LIMIT]

/-! ## PriceLevel.remove_order -/

theorem removeLoop_spec (target : Nat) (l : List Order) :
    ∀ (found : Bool) (kept : List Order) (tq : Nat),
      (PriceLevel.removeLoop target l found kept tq).1 =
        (found || l.any (fun o => o.order_id == target)) ∧
      (PriceLevel.removeLoop target l found kept tq).2.1 =
        kept ++ l.filter (fun o => o.order_id ≠ target) ∧
      (PriceLevel.removeLoop target l found kept tq).2.2 =
        tq - ((l.filter (fun o => o.order_id = target)).map Order.remaining_qty).sum := by
  induction l with
  | nil => intro found kept tq; simp [PriceLevel.removeLoop]
  | cons o rest IH =>
    intro found kept tq
    by_cases h : o.order_id = target
    · obtain ⟨i1, i2, i3⟩ := IH true kept (tq - o.remaining_qty)
      refine ⟨?_, ?_, ?_⟩
      · rw [PriceLevel.removeLoop, if_pos h, i1]
        simp [h]
      · rw [PriceLevel.removeLoop, if_pos h, i2]
        simp [h]
      · rw [PriceLevel.removeLoop, if_pos h, i3]
        simp [h, Nat.sub_sub]
    · obtain ⟨i1, i2, i3⟩ := IH found (kept ++ [o]) tq
      refine ⟨?_, ?_, ?_⟩
      · rw [PriceLevel.removeLoop, if_neg h, i1]
        have hb : (o.order_id == target) = false := by
          simp [h]
        simp [hb]
      · rw [PriceLevel.removeLoop, if_neg h, i2]
        simp [h]
      · rw [PriceLevel.removeLoop, if_neg h, i3]
        simp [h]

/-- In a queue with pairwise distinct ids, filtering for a present id
yields exactly that one entry. -/
theorem filter_eq_target_singleton (l : List Order) (target : Nat)
    (hnd : (l.map Order.order_id).Nodup) (o : Order) (ho : o ∈ l)
    (hid : o.order_id = target) :
    l.filter (fun x => x.order_id = target) = [o] := by
  induction l with
  | nil => cases ho
  | cons a rest IH =>
    simp only [List.map_cons, List.nodup_cons] at hnd
    rcases List.mem_cons.mp ho with rfl | ho2
    · rw [List.filter_cons, if_pos (by simp [hid])]
      have hnil : rest.filter (fun x => x.order_id = target) = [] := by
        rw [List.filter_eq_nil_iff]
        intro x hx
        simp only [decide_eq_true_eq]
        intro hxid
        exact hnd.1 (List.mem_map.mpr ⟨x, hx, by rw [hxid, hid]⟩)
      rw [hnil]
    · rw [List.filter_cons, if_neg ?hneg]
      case hneg =>
        simp only [decide_eq_true_eq]
        intro ha
        exact hnd.1 (List.mem_map.mpr ⟨o, ho2, by rw [hid, ← ha]⟩)
      exact IH hnd.2 ho2

/-- C9 counterexample: with two queued entries bearing the same id, the
scan removes both and deducts both remaining quantities — not only the
first entry as the claim states. -/
theorem C9_counterexample :
    PriceLevel.remove_order
        ⟨100, 8, [⟨7, 100, 5, 0, Side.SELL, OrderType.LIMIT, OrderStatus.NEW⟩,
                  ⟨7, 100, 3, 0, Side.SELL, OrderType.LIMIT, OrderStatus.NEW⟩]⟩ 7 =
      (true, ⟨100, 0, []⟩) ∧
    (PriceLevel.remove_order
        ⟨100, 8, [⟨7, 100, 5, 0, Side.SELL, OrderType.LIMIT, OrderStatus.NEW⟩,
                  ⟨7, 100, 3, 0, Side.SELL, OrderType.LIMIT, OrderStatus.NEW⟩]⟩ 7).2.orders ≠
      [⟨7, 100, 3, 0, Side.SELL, OrderType.LIMIT, OrderStatus.NEW⟩] := by
  decide

/-- C9 amended: when the queued ids are pairwise distinct — as they are in
every engine-managed level — remove_order removes exactly the entry with
the target id preserving the relative order of the others, deducts that
entry's remaining quantity from the aggregate, and returns true iff the
id was found. -/
theorem C9_remove_order (L : PriceLevel) (target : Nat)
    (hnd : (L.orders.map Order.order_id).Nodup) :
    ((L.remove_order target).1 = true ↔ target ∈ L.orders.map Order.order_id) ∧
    (L.remove_order target).2.orders = L.orders.filter (fun o => o.order_id ≠ target) ∧
    (L.remove_order target).2.price = L.price ∧
    (target ∉ L.orders.map Order.order_id → L.remove_order target = (false, L)) ∧
    (∀ o ∈ L.orders, o.order_id = target →
      (L.remove_order target).2.total_quantity = L.total_quantity - o.remaining_qty) := by
  obtain ⟨s1, s2, s3⟩ := removeLoop_spec target L.orders false [] L.total_quantity
  refine ⟨?_, ?_, rfl, ?_, ?_⟩
  · show (PriceLevel.removeLoop target L.orders false [] L.total_quantity).1 = true ↔ _
    rw [s1]
    simp
  · show (PriceLevel.removeLoop target L.orders false [] L.total_quantity).2.1 = _
    rw [s2]
    exact List.nil_append _
  · intro hmem
    have hnone : L.orders.filter (fun o => o.order_id = target) = [] := by
      rw [List.filter_eq_nil_iff]
      intro o ho
      simp only [decide_eq_true_eq]
      intro he
      exact hmem (List.mem_map.mpr ⟨o, ho, he⟩)
    have h1 : (L.remove_order target).1 = false := by
      show (PriceLevel.removeLoop target L.orders false [] L.total_quantity).1 = false
      rw [s1]
      simp only [Bool.false_or, List.any_eq_true]
      rw [List.any_eq_false]
      intro o ho he
      have he2 : o.order_id = target := by simpa using he
      exact hmem (List.mem_map.mpr ⟨o, ho, he2⟩)
    have h2 : (L.remove_order target).2 = L := by
      show PriceLevel.mk L.price
        (PriceLevel.removeLoop target L.orders false [] L.total_quantity).2.2
        (PriceLevel.removeLoop target L.orders false [] L.total_quantity).2.1 = L
      rw [s2, s3, hnone]
      have : L.orders.filter (fun o => o.order_id ≠ target) = L.orders := by
        rw [List.filter_eq_self]
        intro o ho
        simp only [ne_eq, decide_eq_true_eq]
        intro he
        exact hmem (List.mem_map.mpr ⟨o, ho, he⟩)
      rw [this]
      simp
    have hsplit : L.remove_order target =
        ((L.remove_order target).1, (L.remove_order target).2) := rfl
    rw [hsplit, h1, h2]
  · intro o ho hid
    have hone := filter_eq_target_singleton L.orders target hnd o ho hid
    show (PriceLevel.removeLoop target L.orders false [] L.total_quantity).2.2 = _
    rw [s3, hone]
    simp

/-! ## Aggregate consistency (spec I3 / P2) -/

theorem Order.fill_remaining_le (o : Order) (q : Nat) :
    (o.fill q).remaining_qty ≤ o.remaining_qty := by
  unfold Order.fill
  split
  · exact Nat.le_refl _
  split
  · exact Nat.le_refl _
  split
  · exact Nat.le_refl _
  show o.quantity - (o.filled_qty + q) ≤ o.remaining_qty
  unfold Order.remaining_qty
  omega

theorem Order.cancel_remaining (o : Order) : o.cancel.remaining_qty = o.remaining_qty := by
  unfold Order.cancel
  split
  · rfl
  · rfl

theorem pmLoop_consistent (price : ℚ) (orders : List Order) (tq : Nat)
    (idx : List IndexEntry) (ntid : Nat) (inc : Order) (trades : List Trade)
    (h : tq = (orders.map Order.remaining_qty).sum) :
    (pmLoop price orders tq idx ntid inc trades).tq =
      ((pmLoop price orders tq idx ntid inc trades).orders.map Order.remaining_qty).sum := by
  induction orders generalizing tq idx ntid inc trades with
  | nil => simpa [pmLoop] using h
  | cons resting rest IH =>
    by_cases h0 : inc.remaining_qty = 0
    · simpa [pmLoop, h0] using h
    have hle := Order.fill_remaining_le resting (min inc.remaining_qty resting.remaining_qty)
    simp only [List.map_cons, List.sum_cons] at h
    simp only [pmLoop, if_neg h0, if_pos hle]
    split
    · apply IH
      omega
    · show _ = ((_ :: rest).map Order.remaining_qty).sum
      simp only [List.map_cons, List.sum_cons]
      omega

theorem moLoop_consistent (ladder : List PriceLevel) (idx : List IndexEntry) (ntid : Nat)
    (inc : Order) (trades : List Trade)
    (h : ∀ L ∈ ladder, L.consistent) :
    ∀ L ∈ (moLoop ladder idx ntid inc trades).ladder, L.consistent := by
  induction ladder generalizing idx ntid inc trades with
  | nil => simp [moLoop]
  | cons lvl restL IH =>
    by_cases h0 : inc.remaining_qty = 0
    · simpa [moLoop, h0] using h
    by_cases hc : crossable inc lvl.price
    · simp only [moLoop, if_neg h0, if_pos hc]
      split
      · exact IH _ _ _ _ (fun L hL => h L (List.mem_cons_of_mem _ hL))
      · intro L hL
        rcases List.mem_cons.mp hL with rfl | hL2
        · show PriceLevel.consistent _
          unfold PriceLevel.consistent
          exact pmLoop_consistent lvl.price lvl.orders lvl.total_quantity idx ntid inc trades
            (h lvl (List.mem_cons_self _ _))
        · exact h L (List.mem_cons_of_mem _ hL2)
    · simpa [moLoop, h0, hc] using h

theorem PriceLevel.add_order_consistent (L : PriceLevel) (o : Order)
    (h : L.consistent) : (L.add_order o).consistent := by
  unfold PriceLevel.consistent at h ⊢
  unfold PriceLevel.add_order
  simp [h]

theorem bidsInsert_consistent (o : Order) (ls : List PriceLevel)
    (h : ∀ L ∈ ls, L.consistent) :
    ∀ L ∈ bidsInsert o ls, L.consistent := by
  induction ls with
  | nil =>
    intro L hL
    simp only [bidsInsert, List.mem_singleton] at hL
    subst hL
    exact PriceLevel.add_order_consistent _ o (by simp [PriceLevel.consistent])
  | cons lvl rest IH =>
    intro L hL
    unfold bidsInsert at hL
    split at hL
    · rcases List.mem_cons.mp hL with rfl | h2
      · exact PriceLevel.add_order_consistent _ o (h lvl (List.mem_cons_self _ _))
      · exact h L (List.mem_cons_of_mem _ h2)
    · split at hL
      · rcases List.mem_cons.mp hL with rfl | h2
        · exact PriceLevel.add_order_consistent _ o (by simp [PriceLevel.consistent])
        · exact h L h2
      · rcases List.mem_cons.mp hL with rfl | h2
        · exact h L (List.mem_cons_self _ _)
        · exact IH (fun x hx => h x (List.mem_cons_of_mem _ hx)) L h2

theorem asksInsert_consistent (o : Order) (ls : List PriceLevel)
    (h : ∀ L ∈ ls, L.consistent) :
    ∀ L ∈ asksInsert o ls, L.consistent := by
  induction ls with
  | nil =>
    intro L hL
    simp only [asksInsert, List.mem_singleton] at hL
    subst hL
    exact PriceLevel.add_order_consistent _ o (by simp [PriceLevel.consistent])
  | cons lvl rest IH =>
    intro L hL
    unfold asksInsert at hL
    split at hL
    · rcases List.mem_cons.mp hL with rfl | h2
      · exact PriceLevel.add_order_consistent _ o (h lvl (List.mem_cons_self _ _))
      · exact h L (List.mem_cons_of_mem _ h2)
    · split at hL
      · rcases List.mem_cons.mp hL with rfl | h2
        · exact PriceLevel.add_order_consistent _ o (by simp [PriceLevel.consistent])
        · exact h L h2
      · rcases List.mem_cons.mp hL with rfl | h2
        · exact h L (List.mem_cons_self _ _)
        · exact IH (fun x hx => h x (List.mem_cons_of_mem _ hx)) L h2

theorem sum_remaining_filter_split (l : List Order) (t : Nat) :
    ((l.filter (fun o => o.order_id = t)).map Order.remaining_qty).sum +
    ((l.filter (fun o => o.order_id ≠ t)).map Order.remaining_qty).sum =
    (l.map Order.remaining_qty).sum := by
  induction l with
  | nil => rfl
  | cons o rest IH =>
    by_cases h : o.order_id = t
    · simp [List.filter_cons, h] at IH ⊢
      omega
    · simp [List.filter_cons, h] at IH ⊢
      omega

theorem PriceLevel.remove_order_consistent (L : PriceLevel) (t : Nat)
    (h : L.consistent) : (L.remove_order t).2.consistent := by
  obtain ⟨_, s2, s3⟩ := removeLoop_spec t L.orders false [] L.total_quantity
  unfold PriceLevel.consistent at h ⊢
  show (PriceLevel.removeLoop t L.orders false [] L.total_quantity).2.2 =
    ((PriceLevel.removeLoop t L.orders false [] L.total_quantity).2.1.map
      Order.remaining_qty).sum
  rw [s2, s3]
  have := sum_remaining_filter_split L.orders t
  simp only [List.nil_append]
  omega

theorem PriceLevel.pop_front_order_consistent (L : PriceLevel)
    (h : L.consistent) : L.pop_front_order.consistent := by
  unfold PriceLevel.consistent at h ⊢
  unfold PriceLevel.pop_front_order
  rcases ho : L.orders with _ | ⟨o, rest⟩
  · simpa [ho] using h
  · rw [ho] at h
    simp only [List.map_cons, List.sum_cons] at h
    simp only [List.map_cons, List.sum_cons]
    omega

theorem ladderCancel_consistent (p : ℚ) (oid : Nat) (ls : List PriceLevel)
    (h : ∀ L ∈ ls, L.consistent) :
    ∀ L ∈ (ladderCancel p oid ls).2, L.consistent := by
  induction ls with
  | nil => simp [ladderCancel]
  | cons lvl rest IH =>
    intro L hL
    unfold ladderCancel at hL
    split at hL
    · simp only [] at hL
      split at hL
      · exact h L (List.mem_cons_of_mem _ hL)
      · rcases List.mem_cons.mp hL with rfl | h2
        · have hc := h lvl (List.mem_cons_self _ _)
          have hlvl1 : PriceLevel.consistent
              ⟨lvl.price, lvl.total_quantity,
               lvl.orders.map (fun o => if o.order_id = oid then o.cancel else o)⟩ := by
            unfold PriceLevel.consistent at hc ⊢
            rw [List.map_map]
            have hmap : (Order.remaining_qty ∘ fun o => if o.order_id = oid then o.cancel else o) =
                fun o => Order.remaining_qty o := by
              funext o
              simp only [Function.comp]
              split
              · exact Order.cancel_remaining o
              · rfl
            rw [hmap]
            exact hc
          exact PriceLevel.remove_order_consistent _ oid hlvl1
        · exact h L (List.mem_cons_of_mem _ h2)
    · rcases List.mem_cons.mp hL with rfl | h2
      · exact h L (List.mem_cons_self _ _)
      · exact IH (fun x hx => h x (List.mem_cons_of_mem _ hx)) L h2

theorem Book.cancel_order_consistent (b : Book) (oid : Nat)
    (h : ∀ L ∈ b.bids ++ b.asks, L.consistent) :
    ∀ L ∈ (b.cancel_order oid).2.bids ++ (b.cancel_order oid).2.asks, L.consistent := by
  have hb : ∀ L ∈ b.bids, L.consistent := fun L hL => h L (List.mem_append_left _ hL)
  have ha : ∀ L ∈ b.asks, L.consistent := fun L hL => h L (List.mem_append_right _ hL)
  rcases hf : indexFind b.index oid with _ | e
  · simpa [Book.cancel_order, hf] using h
  · cases hs : e.side
    · simp only [Book.cancel_order, hf, hs]
      intro L hL
      rcases List.mem_append.mp hL with h1 | h2
      · exact ladderCancel_consistent e.price oid b.bids hb L h1
      · exact ha L h2
    · simp only [Book.cancel_order, hf, hs]
      intro L hL
      rcases List.mem_append.mp hL with h1 | h2
      · exact hb L h1
      · exact ladderCancel_consistent e.price oid b.asks ha L h2

theorem Book.add_order_all_consistent (b : Book) (p : ℚ) (q : Nat) (s : Side) (ty : OrderType)
    (h : ∀ L ∈ b.bids ++ b.asks, L.consistent) :
    ∀ L ∈ (b.add_order p q s ty).2.2.bids ++ (b.add_order p q s ty).2.2.asks,
      L.consistent := by
  have hb : ∀ L ∈ b.bids, L.consistent := fun L hL => h L (List.mem_append_left _ hL)
  have ha : ∀ L ∈ b.asks, L.consistent := fun L hL => h L (List.mem_append_right _ hL)
  by_cases hr : q = 0 ∨ p < 0 ∨ (ty = OrderType.LIMIT ∧ p ≤ 0)
  · rw [add_order_rejected b p q s ty hr]
    simpa using h
  push_neg at hr
  obtain ⟨h1, h2, h3⟩ := hr
  have hp2 : ¬ p < 0 := not_lt.mpr h2
  have hp3 : ¬(ty = OrderType.LIMIT ∧ p ≤ 0) := by
    rintro ⟨hax, hbx⟩
    exact absurd hbx (not_le.mpr (h3 hax))
  cases s with
  | BUY =>
    simp only [Book.add_order, if_neg h1, if_neg hp2, if_neg hp3]
    split
    · intro L hL
      rcases List.mem_append.mp hL with hl | hl
      · exact bidsInsert_consistent _ _ hb L hl
      · exact moLoop_consistent b.asks b.index b.next_trade_id _ [] ha L hl
    · intro L hL
      rcases List.mem_append.mp hL with hl | hl
      · exact hb L hl
      · exact moLoop_consistent b.asks b.index b.next_trade_id _ [] ha L hl
  | SELL =>
    simp only [Book.add_order, if_neg h1, if_neg hp2, if_neg hp3]
    split
    · intro L hL
      rcases List.mem_append.mp hL with hl | hl
      · exact moLoop_consistent b.bids b.index b.next_trade_id _ [] hb L hl
      · exact asksInsert_consistent _ _ ha L hl
    · intro L hL
      rcases List.mem_append.mp hL with hl | hl
      · exact moLoop_consistent b.bids b.index b.next_trade_id _ [] hb L hl
      · exact ha L hl

theorem Book.add_market_order_consistent (b : Book) (q : Nat) (s : Side)
    (h : ∀ L ∈ b.bids ++ b.asks, L.consistent) :
    ∀ L ∈ (b.add_market_order q s).2.bids ++ (b.add_market_order q s).2.asks,
      L.consistent := by
  have hb : ∀ L ∈ b.bids, L.consistent := fun L hL => h L (List.mem_append_left _ hL)
  have ha : ∀ L ∈ b.asks, L.consistent := fun L hL => h L (List.mem_append_right _ hL)
  by_cases hq : q = 0
  · rw [hq, add_market_order_zero b s]
    simpa using h
  cases s with
  | BUY =>
    simp only [Book.add_market_order, if_neg hq]
    intro L hL
    rcases List.mem_append.mp hL with hl | hl
    · exact hb L hl
    · exact moLoop_consistent b.asks b.index b.next_trade_id _ [] ha L hl
  | SELL =>
    simp only [Book.add_market_order, if_neg hq]
    intro L hL
    rcases List.mem_append.mp hL with hl | hl
    · exact moLoop_consistent b.bids b.index b.next_trade_id _ [] hb L hl
    · exact ha L hl

/-- C4: for every PriceLevel in either ladder, total_quantity equals the
sum of remaining_qty over its queued orders, and this consistency is
preserved by PriceLevel.add_order, remove_order and pop_front_order as
well as by add_order, add_market_order and cancel_order (whose in-place
partial fills adjust the aggregate through update_quantity). -/
theorem C4_aggregate_consistency (b : Book) (p : ℚ) (q : Nat) (s : Side) (ty : OrderType)
    (oid : Nat) (L0 : PriceLevel) (o0 : Order)
    (hL0 : L0.consistent)
    (h : ∀ L ∈ b.bids ++ b.asks, L.consistent) :
    (L0.add_order o0).consistent ∧
    (L0.remove_order oid).2.consistent ∧
    L0.pop_front_order.consistent ∧
    (∀ L ∈ (b.add_order p q s ty).2.2.bids ++ (b.add_order p q s ty).2.2.asks,
      L.consistent) ∧
    (∀ L ∈ (b.add_market_order q s).2.bids ++ (b.add_market_order q s).2.asks,
      L.consistent) ∧
    (∀ L ∈ (b.cancel_order oid).2.bids ++ (b.cancel_order oid).2.asks, L.consistent) :=
  ⟨PriceLevel.add_order_consistent L0 o0 hL0,
   PriceLevel.remove_order_consistent L0 oid hL0,
   PriceLevel.pop_front_order_consistent L0 hL0,
   Book.add_order_all_consistent b p q s ty h,
   Book.add_market_order_consistent b q s h,
   Book.cancel_order_consistent b oid h⟩

/-- Witness for C4 at a concrete level and one-level book. -/
theorem C4_witness :
    PriceLevel.consistent
      ⟨100, 7, [⟨1, 100, 10, 3, Side.BUY, OrderType.LIMIT, OrderStatus.PARTIALLY_FILLED⟩]⟩ ∧
    ((PriceLevel.add_order
        ⟨100, 7, [⟨1, 100, 10, 3, Side.BUY, OrderType.LIMIT, OrderStatus.PARTIALLY_FILLED⟩]⟩
        ⟨2, 100, 5, 0, Side.BUY, OrderType.LIMIT, OrderStatus.NEW⟩).consistent ∧
     (PriceLevel.remove_order
        ⟨100, 7, [⟨1, 100, 10, 3, Side.BUY, OrderType.LIMIT, OrderStatus.PARTIALLY_FILLED⟩]⟩
        1).2.consistent ∧
     (PriceLevel.pop_front_order
        ⟨100, 7, [⟨1, 100, 10, 3, Side.BUY, OrderType.LIMIT, OrderStatus.PARTIALLY_FILLED⟩]⟩).consistent ∧
     (∀ L ∈ (Book.init.add_order 100 5 Side.BUY OrderType.LIMIT).2.2.bids ++
        (Book.init.add_order 100 5 Side.BUY OrderType.LIMIT).2.2.asks, L.consistent) ∧
     (∀ L ∈ (Book.init.add_market_order 5 Side.BUY).2.bids ++
        (Book.init.add_market_order 5 Side.BUY).2.asks, L.consistent) ∧
     (∀ L ∈ (Book.init.cancel_order 1).2.bids ++ (Book.init.cancel_order 1).2.asks,
        L.consistent)) :=
  ⟨by unfold PriceLevel.consistent; decide,
   C4_aggregate_consistency Book.init 100 5 Side.BUY OrderType.LIMIT 1
     ⟨100, 7, [⟨1, 100, 10, 3, Side.BUY, OrderType.LIMIT, OrderStatus.PARTIALLY_FILLED⟩]⟩
     ⟨2, 100, 5, 0, Side.BUY, OrderType.LIMIT, OrderStatus.NEW⟩
     (by unfold PriceLevel.consistent; decide)
     (by intro L hL; simp [Book.init] at hL)⟩

/-! ## Fill helper lemmas and matching-trade emission -/

theorem Order.live_remaining_pos (o : Order) (h : o.live) : 0 < o.remaining_qty := by
  obtain ⟨_, hf⟩ := h
  unfold Order.remaining_qty
  omega

theorem Order.fill_filled_add (o : Order) (q : Nat) (hq : q ≤ o.remaining_qty)
    (hst : q ≠ 0 → o.status ≠ OrderStatus.CANCELLED ∧ o.status ≠ OrderStatus.FILLED) :
    (o.fill q).filled_qty = o.filled_qty + q := by
  by_cases hq0 : q = 0
  · simp [Order.fill, hq0]
  have hover : o.filled_qty + q ≤ o.quantity := by
    unfold Order.remaining_qty at hq
    omega
  rw [Order.fill_spec o q hq0 hover (by have := hst hq0; tauto)]

theorem Order.fill_incOK (o : Order) (q : Nat) (h : o.incOK) (hq : q ≤ o.remaining_qty) :
    (o.fill q).incOK := by
  by_cases hq0 : q = 0
  · simpa [Order.fill, hq0] using h
  have hrem : o.remaining_qty ≠ 0 := by omega
  obtain ⟨hf, hs⟩ := h
  obtain ⟨hs1, hs2⟩ := hs hrem
  have hover : o.filled_qty + q ≤ o.quantity := by
    unfold Order.remaining_qty at hq
    omega
  rw [Order.fill_spec o q hq0 hover (by tauto)]
  unfold Order.incOK Order.remaining_qty
  refine ⟨hover, fun hrem2 => ?_⟩
  by_cases he : o.filled_qty + q = o.quantity
  · exact absurd (by omega : o.quantity - (o.filled_qty + q) = 0) hrem2
  · simp [he]

theorem Order.fill_live_of_not_full (o : Order) (q : Nat) (h : o.live)
    (hq : q ≤ o.remaining_qty) (hnf : ¬(o.fill q).is_fully_filled = true) :
    (o.fill q).live := by
  by_cases hq0 : q = 0
  · simpa [Order.fill, hq0] using h
  obtain ⟨hs, hf⟩ := h
  have hover : o.filled_qty + q ≤ o.quantity := by
    unfold Order.remaining_qty at hq
    omega
  have hspec := Order.fill_spec o q hq0 hover (by rcases hs with h1 | h1 <;> simp [h1])
  rw [hspec] at hnf ⊢
  unfold Order.is_fully_filled at hnf
  simp only [beq_iff_eq] at hnf
  unfold Order.live
  by_cases he : o.filled_qty + q = o.quantity
  · exact absurd he (by simpa using hnf)
  · exact ⟨Or.inr (by simp [he]), by simp; omega⟩

theorem pmLoop_inc_fields (price : ℚ) (orders : List Order) :
    ∀ (tq : Nat) (idx : List IndexEntry) (ntid : Nat) (inc : Order) (trades : List Trade),
      (pmLoop price orders tq idx ntid inc trades).inc.order_id = inc.order_id ∧
      (pmLoop price orders tq idx ntid inc trades).inc.side = inc.side ∧
      (pmLoop price orders tq idx ntid inc trades).inc.type = inc.type ∧
      (pmLoop price orders tq idx ntid inc trades).inc.price = inc.price ∧
      (pmLoop price orders tq idx ntid inc trades).inc.quantity = inc.quantity := by
  induction orders with
  | nil => intro tq idx ntid inc trades; exact ⟨rfl, rfl, rfl, rfl, rfl⟩
  | cons resting rest IH =>
    intro tq idx ntid inc trades
    by_cases h0 : inc.remaining_qty = 0
    · simp [pmLoop, h0]
    simp only [pmLoop, if_neg h0]
    split
    · obtain ⟨i1, i2, i3, i4, i5⟩ := IH _ _ _ _ _
      exact ⟨by rw [i1, Order.fill_order_id], by rw [i2, Order.fill_side],
        by rw [i3, Order.fill_type], by rw [i4, Order.fill_price],
        by rw [i5, Order.fill_quantity]⟩
    · exact ⟨Order.fill_order_id _ _, Order.fill_side _ _, Order.fill_type _ _,
        Order.fill_price _ _, Order.fill_quantity _ _⟩

theorem pmLoop_incOK (price : ℚ) (orders : List Order) :
    ∀ (tq : Nat) (idx : List IndexEntry) (ntid : Nat) (inc : Order) (trades : List Trade),
      inc.incOK → (pmLoop price orders tq idx ntid inc trades).inc.incOK := by
  induction orders with
  | nil => intro tq idx ntid inc trades hI; exact hI
  | cons resting rest IH =>
    intro tq idx ntid inc trades hI
    by_cases h0 : inc.remaining_qty = 0
    · simpa [pmLoop, h0] using hI
    simp only [pmLoop, if_neg h0]
    split
    · exact IH _ _ _ _ _ (Order.fill_incOK inc _ hI (Nat.min_le_left _ _))
    · exact Order.fill_incOK inc _ hI (Nat.min_le_left _ _)

theorem pmLoop_aligned (price : ℚ) (s : Side) (orders : List Order) :
    ∀ (tq : Nat) (idx : List IndexEntry) (ntid : Nat) (inc : Order) (trades : List Trade),
      (∀ o ∈ orders, o.side = s ∧ o.price = price ∧ o.live) →
      ∀ o ∈ (pmLoop price orders tq idx ntid inc trades).orders,
        o.side = s ∧ o.price = price ∧ o.live := by
  induction orders with
  | nil =>
    intro tq idx ntid inc trades hA o ho
    simp [pmLoop] at ho
  | cons resting rest IH =>
    intro tq idx ntid inc trades hA
    by_cases h0 : inc.remaining_qty = 0
    · simpa [pmLoop, h0] using hA
    simp only [pmLoop, if_neg h0]
    split
    · exact IH _ _ _ _ _ (fun o ho => hA o (List.mem_cons_of_mem _ ho))
    · intro o ho
      rcases List.mem_cons.mp ho with rfl | h2
      · obtain ⟨hside, hprice, hlive⟩ := hA resting (List.mem_cons_self _ _)
        rename_i hnf
        refine ⟨?_, ?_, ?_⟩
        · rw [Order.fill_side]
          exact hside
        · rw [Order.fill_price]
          exact hprice
        · exact Order.fill_live_of_not_full resting _ hlive (Nat.min_le_right _ _) hnf
      · exact hA o (List.mem_cons_of_mem _ h2)

theorem pmLoop_emission (price : ℚ) (s : Side) (orders : List Order) :
    ∀ (tq : Nat) (idx : List IndexEntry) (ntid : Nat) (inc : Order) (trades : List Trade),
      (∀ o ∈ orders, o.side = s ∧ o.price = price ∧ o.live) →
      inc.incOK →
      ∀ t ∈ (pmLoop price orders tq idx ntid inc trades).trades,
        t ∈ trades ∨
        ∃ incB restB : Order,
          incB.order_id = inc.order_id ∧ incB.side = inc.side ∧
          restB.side = s ∧ restB.price = price ∧ restB.live ∧
          incB.remaining_qty ≠ 0 ∧ TradeFromMatch t incB restB := by
  induction orders with
  | nil =>
    intro tq idx ntid inc trades hA hI t ht
    exact Or.inl (by simpa [pmLoop] using ht)
  | cons resting rest IH =>
    intro tq idx ntid inc trades hA hI
    by_cases h0 : inc.remaining_qty = 0
    · intro t ht
      exact Or.inl (by simpa [pmLoop, h0] using ht)
    simp only [pmLoop, if_neg h0]
    obtain ⟨hside, hprice, hlive⟩ := hA resting (List.mem_cons_self _ _)
    have hrq : 0 < resting.remaining_qty := Order.live_remaining_pos resting hlive
    have hTFM : TradeFromMatch
        ⟨ntid, if inc.side = Side.BUY then inc.order_id else resting.order_id,
         if inc.side = Side.SELL then inc.order_id else resting.order_id,
         price, min inc.remaining_qty resting.remaining_qty, 0⟩ inc resting := by
      refine ⟨hprice.symm, rfl, rfl, rfl, ?_, ?_⟩
      · exact Order.fill_filled_add inc _ (Nat.min_le_left _ _)
          (fun _ => hI.2 h0)
      · refine Order.fill_filled_add resting _ (Nat.min_le_right _ _) (fun _ => ?_)
        rcases hlive.1 with h1 | h1 <;> simp [h1]
    split
    · intro t ht
      rcases IH _ _ _ _ _ (fun o ho => hA o (List.mem_cons_of_mem _ ho))
          (Order.fill_incOK inc _ hI (Nat.min_le_left _ _)) t ht with hin | hex
      · rcases List.mem_append.mp hin with h1 | h1
        · exact Or.inl h1
        · refine Or.inr ⟨inc, resting, rfl, rfl, hside, hprice, hlive, h0, ?_⟩
          rcases List.mem_singleton.mp h1 with rfl
          exact hTFM
      · obtain ⟨incB, restB, e1, e2, e3, e4, e5, e6, e7⟩ := hex
        refine Or.inr ⟨incB, restB, ?_, ?_, e3, e4, e5, e6, e7⟩
        · rw [e1, Order.fill_order_id]
        · rw [e2, Order.fill_side]
    · intro t ht
      simp only [PMResult.trades] at ht
      rcases List.mem_append.mp ht with h1 | h1
      · exact Or.inl h1
      · refine Or.inr ⟨inc, resting, rfl, rfl, hside, hprice, hlive, h0, ?_⟩
        rcases List.mem_singleton.mp h1 with rfl
        exact hTFM

theorem moLoop_inc_fields (ladder : List PriceLevel) :
    ∀ (idx : List IndexEntry) (ntid : Nat) (inc : Order) (trades : List Trade),
      (moLoop ladder idx ntid inc trades).inc.order_id = inc.order_id ∧
      (moLoop ladder idx ntid inc trades).inc.side = inc.side ∧
      (moLoop ladder idx ntid inc trades).inc.type = inc.type ∧
      (moLoop ladder idx ntid inc trades).inc.price = inc.price ∧
      (moLoop ladder idx ntid inc trades).inc.quantity = inc.quantity := by
  induction ladder with
  | nil => intro idx ntid inc trades; exact ⟨rfl, rfl, rfl, rfl, rfl⟩
  | cons lvl restL IH =>
    intro idx ntid inc trades
    by_cases h0 : inc.remaining_qty = 0
    · simp [moLoop, h0]
    by_cases hc : crossable inc lvl.price
    · simp only [moLoop, if_neg h0, if_pos hc]
      obtain ⟨p1, p2, p3, p4, p5⟩ := pmLoop_inc_fields lvl.price lvl.orders
        lvl.total_quantity idx ntid inc trades
      split
      · obtain ⟨i1, i2, i3, i4, i5⟩ := IH _ _ _ _
        exact ⟨by rw [i1, p1], by rw [i2, p2], by rw [i3, p3], by rw [i4, p4],
          by rw [i5, p5]⟩
      · exact ⟨p1, p2, p3, p4, p5⟩
    · simp [moLoop, h0, hc]

theorem moLoop_incOK (ladder : List PriceLevel) :
    ∀ (idx : List IndexEntry) (ntid : Nat) (inc : Order) (trades : List Trade),
      inc.incOK → (moLoop ladder idx ntid inc trades).inc.incOK := by
  induction ladder with
  | nil => intro idx ntid inc trades hI; exact hI
  | cons lvl restL IH =>
    intro idx ntid inc trades hI
    by_cases h0 : inc.remaining_qty = 0
    · simpa [moLoop, h0] using hI
    by_cases hc : crossable inc lvl.price
    · simp only [moLoop, if_neg h0, if_pos hc]
      split
      · exact IH _ _ _ _ (pmLoop_incOK lvl.price lvl.orders _ _ _ _ _ hI)
      · exact pmLoop_incOK lvl.price lvl.orders _ _ _ _ _ hI
    · simpa [moLoop, h0, hc] using hI

theorem moLoop_aligned (s : Side) (ladder : List PriceLevel) :
    ∀ (idx : List IndexEntry) (ntid : Nat) (inc : Order) (trades : List Trade),
      (∀ L ∈ ladder, ∀ o ∈ L.orders, o.side = s ∧ o.price = L.price ∧ o.live) →
      ∀ L ∈ (moLoop ladder idx ntid inc trades).ladder,
        ∀ o ∈ L.orders, o.side = s ∧ o.price = L.price ∧ o.live := by
  induction ladder with
  | nil =>
    intro idx ntid inc trades hA L hL
    simp [moLoop] at hL
  | cons lvl restL IH =>
    intro idx ntid inc trades hA
    by_cases h0 : inc.remaining_qty = 0
    · simpa [moLoop, h0] using hA
    by_cases hc : crossable inc lvl.price
    · simp only [moLoop, if_neg h0, if_pos hc]
      split
      · exact IH _ _ _ _ (fun L hL => hA L (List.mem_cons_of_mem _ hL))
      · intro L hL
        rcases List.mem_cons.mp hL with rfl | h2
        · intro o ho
          exact pmLoop_aligned lvl.price s lvl.orders _ _ _ _ _
            (hA lvl (List.mem_cons_self _ _)) o ho
        · exact hA L (List.mem_cons_of_mem _ h2)
    · simpa [moLoop, h0, hc] using hA

theorem moLoop_emission (s : Side) (ladder : List PriceLevel) :
    ∀ (idx : List IndexEntry) (ntid : Nat) (inc : Order) (trades : List Trade),
      (∀ L ∈ ladder, ∀ o ∈ L.orders, o.side = s ∧ o.price = L.price ∧ o.live) →
      inc.incOK →
      ∀ t ∈ (moLoop ladder idx ntid inc trades).trades,
        t ∈ trades ∨
        ∃ incB restB : Order,
          incB.order_id = inc.order_id ∧ incB.side = inc.side ∧
          restB.side = s ∧ restB.live ∧ incB.remaining_qty ≠ 0 ∧
          restB.price ∈ ladder.map PriceLevel.price ∧
          TradeFromMatch t incB restB := by
  induction ladder with
  | nil =>
    intro idx ntid inc trades hA hI t ht
    exact Or.inl (by simpa [moLoop] using ht)
  | cons lvl restL IH =>
    intro idx ntid inc trades hA hI
    by_cases h0 : inc.remaining_qty = 0
    · intro t ht
      exact Or.inl (by simpa [moLoop, h0] using ht)
    by_cases hc : crossable inc lvl.price
    · simp only [moLoop, if_neg h0, if_pos hc]
      have hpm := pmLoop_emission lvl.price s lvl.orders lvl.total_quantity idx ntid inc
        trades (hA lvl (List.mem_cons_self _ _)) hI
      obtain ⟨p1, p2, _, _, _⟩ := pmLoop_inc_fields lvl.price lvl.orders
        lvl.total_quantity idx ntid inc trades
      split
      · intro t ht
        rcases IH _ _ _ _ (fun L hL => hA L (List.mem_cons_of_mem _ hL))
            (pmLoop_incOK lvl.price lvl.orders _ _ _ _ _ hI) t ht with hin | hex
        · rcases hpm t hin with h1 | h1
          · exact Or.inl h1
          · obtain ⟨incB, restB, e1, e2, e3, e4, e5, e6, e7⟩ := h1
            exact Or.inr ⟨incB, restB, e1, e2, e3, e5, e6,
              by rw [e4]; exact List.mem_cons_self _ _, e7⟩
        · obtain ⟨incB, restB, e1, e2, e3, e4, e5, e6, e7⟩ := hex
          refine Or.inr ⟨incB, restB, ?_, ?_, e3, e4, e5,
            List.mem_cons_of_mem _ e6, e7⟩
          · rw [e1, p1]
          · rw [e2, p2]
      · intro t ht
        rcases hpm t ht with h1 | h1
        · exact Or.inl h1
        · obtain ⟨incB, restB, e1, e2, e3, e4, e5, e6, e7⟩ := h1
          exact Or.inr ⟨incB, restB, e1, e2, e3, e5, e6,
            by rw [e4]; exact List.mem_cons_self _ _, e7⟩
    · intro t ht
      exact Or.inl (by simpa [moLoop, h0, hc] using ht)

/-- One trade is well formed for a book and the aggressor's id: its fields
are assigned by side from the two participating orders as they stood at
the match, it executes at the resting order's own price — which is a
level key of the opposite ladder — and its quantity is the minimum of the
two remaining quantities at that moment. -/
def TradeWellFormed (b : Book) (aid : Nat) (t : Trade) : Prop :=
  ∃ buyer seller : Order,
    buyer.side = Side.BUY ∧ seller.side = Side.SELL ∧
    t.buy_order_id = buyer.order_id ∧ t.sell_order_id = seller.order_id ∧
    t.quantity = min buyer.remaining_qty seller.remaining_qty ∧
    ((buyer.order_id = aid ∧ t.price = seller.price ∧
        seller.price ∈ b.asks.map PriceLevel.price) ∨
     (seller.order_id = aid ∧ t.price = buyer.price ∧
        buyer.price ∈ b.bids.map PriceLevel.price))

theorem accept_conds (p : ℚ) (q : Nat) (ty : OrderType)
    (hr : ¬(q = 0 ∨ p < 0 ∨ (ty = OrderType.LIMIT ∧ p ≤ 0))) :
    ¬q = 0 ∧ ¬p < 0 ∧ ¬(ty = OrderType.LIMIT ∧ p ≤ 0) := by
  push_neg at hr
  obtain ⟨h1, h2, h3⟩ := hr
  exact ⟨h1, not_lt.mpr h2, fun hx => absurd hx.2 (not_le.mpr (h3 hx.1))⟩

theorem fresh_incOK (id : Nat) (p : ℚ) (q : Nat) (s : Side) (ty : OrderType) :
    (⟨id, p, q, 0, s, ty, OrderStatus.NEW⟩ : Order).incOK :=
  ⟨Nat.zero_le _, fun _ => ⟨by simp, by simp⟩⟩

theorem emission_wellformed_buy (b : Book) (aid : Nat) (idx : List IndexEntry)
    (ntid : Nat) (inc : Order) (trades0 : List Trade)
    (hAa : ∀ L ∈ b.asks, ∀ o ∈ L.orders, o.side = Side.SELL ∧ o.price = L.price ∧ o.live)
    (hI : inc.incOK) (hside : inc.side = Side.BUY) (hid : inc.order_id = aid) :
    ∀ t ∈ (moLoop b.asks idx ntid inc trades0).trades,
      t ∈ trades0 ∨ TradeWellFormed b aid t := by
  intro t ht
  rcases moLoop_emission Side.SELL b.asks idx ntid inc trades0 hAa hI t ht with h1 | h1
  · exact Or.inl h1
  obtain ⟨incB, restB, e1, e2, e3, e4, e5, e6, f1, f2, f3, f4, _, _⟩ := h1
  have hbside : incB.side = Side.BUY := e2.trans hside
  refine Or.inr ⟨incB, restB, hbside, e3, ?_, ?_, f2, Or.inl ⟨e1.trans hid, f1, e6⟩⟩
  · rw [f3, if_pos hbside]
  · rw [f4, if_neg (by rw [hbside]; decide)]

theorem emission_wellformed_sell (b : Book) (aid : Nat) (idx : List IndexEntry)
    (ntid : Nat) (inc : Order) (trades0 : List Trade)
    (hAb : ∀ L ∈ b.bids, ∀ o ∈ L.orders, o.side = Side.BUY ∧ o.price = L.price ∧ o.live)
    (hI : inc.incOK) (hside : inc.side = Side.SELL) (hid : inc.order_id = aid) :
    ∀ t ∈ (moLoop b.bids idx ntid inc trades0).trades,
      t ∈ trades0 ∨ TradeWellFormed b aid t := by
  intro t ht
  rcases moLoop_emission Side.BUY b.bids idx ntid inc trades0 hAb hI t ht with h1 | h1
  · exact Or.inl h1
  obtain ⟨incB, restB, e1, e2, e3, e4, e5, e6, f1, f2, f3, f4, _, _⟩ := h1
  have hsside : incB.side = Side.SELL := e2.trans hside
  refine Or.inr ⟨restB, incB, e3, hsside, ?_, ?_, ?_, Or.inr ⟨e1.trans hid, f1, e6⟩⟩
  · rw [f3, if_neg (by rw [hsside]; decide)]
  · rw [f4, if_pos hsside]
  · rw [f2, Nat.min_comm]

theorem add_order_trades_eq (b : Book) (p : ℚ) (q : Nat) (s : Side) (ty : OrderType)
    (hr : ¬(q = 0 ∨ p < 0 ∨ (ty = OrderType.LIMIT ∧ p ≤ 0))) :
    (b.add_order p q s ty).2.1 =
      (match s with
       | Side.BUY => moLoop b.asks b.index b.next_trade_id
           ⟨b.next_order_id, p, q, 0, Side.BUY, ty, OrderStatus.NEW⟩ []
       | Side.SELL => moLoop b.bids b.index b.next_trade_id
           ⟨b.next_order_id, p, q, 0, Side.SELL, ty, OrderStatus.NEW⟩ []).trades := by
  obtain ⟨h1, h2, h3⟩ := accept_conds p q ty hr
  cases s <;> simp only [Book.add_order, if_neg h1, if_neg h2, if_neg h3]

theorem add_market_trades_eq (b : Book) (q : Nat) (s : Side) (hq : q ≠ 0) :
    (b.add_market_order q s).1 =
      (match s with
       | Side.BUY => moLoop b.asks b.index b.next_trade_id
           ⟨b.next_order_id, 0, q, 0, Side.BUY, OrderType.MARKET, OrderStatus.NEW⟩ []
       | Side.SELL => moLoop b.bids b.index b.next_trade_id
           ⟨b.next_order_id, 0, q, 0, Side.SELL, OrderType.MARKET, OrderStatus.NEW⟩ []).trades := by
  cases s <;> simp only [Book.add_market_order, if_neg hq]

/-- C1: every trade produced by matching is priced at the resting
(passive) order's level key on the opposite ladder, its quantity is the
minimum of the two participants' remaining quantities at the moment of
the match, and buy_order_id and sell_order_id hold the BUY-side and
SELL-side participants' ids respectively, whichever side was the
aggressor. -/
theorem C1_trade_fields (b : Book) (p : ℚ) (q : Nat) (s : Side) (ty : OrderType)
    (hAb : ∀ L ∈ b.bids, ∀ o ∈ L.orders, o.side = Side.BUY ∧ o.price = L.price ∧ o.live)
    (hAa : ∀ L ∈ b.asks, ∀ o ∈ L.orders, o.side = Side.SELL ∧ o.price = L.price ∧ o.live) :
    (∀ t ∈ (b.add_order p q s ty).2.1,
        TradeWellFormed b (b.add_order p q s ty).1 t) ∧
    (∀ t ∈ (b.add_market_order q s).1, TradeWellFormed b b.next_order_id t) := by
  constructor
  · by_cases hr : q = 0 ∨ p < 0 ∨ (ty = OrderType.LIMIT ∧ p ≤ 0)
    · rw [add_order_rejected b p q s ty hr]
      intro t ht
      simp at ht
    · have hfst := (add_order_accepted_ids b p q s ty hr).1
      have htr := add_order_trades_eq b p q s ty hr
      rw [htr, hfst]
      cases s
      · intro t ht
        rcases emission_wellformed_buy b b.next_order_id b.index b.next_trade_id
            _ [] hAa (fresh_incOK _ _ _ _ _) rfl rfl t ht with h | h
        · simp at h
        · exact h
      · intro t ht
        rcases emission_wellformed_sell b b.next_order_id b.index b.next_trade_id
            _ [] hAb (fresh_incOK _ _ _ _ _) rfl rfl t ht with h | h
        · simp at h
        · exact h
  · by_cases hq : q = 0
    · rw [hq, add_market_order_zero b s]
      intro t ht
      simp at ht
    · have htr := add_market_trades_eq b q s hq
      rw [htr]
      cases s
      · intro t ht
        rcases emission_wellformed_buy b b.next_order_id b.index b.next_trade_id
            _ [] hAa (fresh_incOK _ _ _ _ _) rfl rfl t ht with h | h
        · simp at h
        · exact h
      · intro t ht
        rcases emission_wellformed_sell b b.next_order_id b.index b.next_trade_id
            _ [] hAb (fresh_incOK _ _ _ _ _) rfl rfl t ht with h | h
        · simp at h
        · exact h

/-- Witness for C1 on a one-ask book crossed by an incoming buy. -/
theorem C1_witness :
    (∀ L ∈ (Book.init.add_order 100 5 Side.SELL OrderType.LIMIT).2.2.bids,
        ∀ o ∈ L.orders, o.side = Side.BUY ∧ o.price = L.price ∧ o.live) ∧
    (∀ L ∈ (Book.init.add_order 100 5 Side.SELL OrderType.LIMIT).2.2.asks,
        ∀ o ∈ L.orders, o.side = Side.SELL ∧ o.price = L.price ∧ o.live) ∧
    (∀ t ∈ ((Book.init.add_order 100 5 Side.SELL OrderType.LIMIT).2.2.add_order
        101 3 Side.BUY OrderType.LIMIT).2.1,
      TradeWellFormed (Book.init.add_order 100 5 Side.SELL OrderType.LIMIT).2.2
        ((Book.init.add_order 100 5 Side.SELL OrderType.LIMIT).2.2.add_order
          101 3 Side.BUY OrderType.LIMIT).1 t) := by
  have hAb : ∀ L ∈ (Book.init.add_order 100 5 Side.SELL OrderType.LIMIT).2.2.bids,
      ∀ o ∈ L.orders, o.side = Side.BUY ∧ o.price = L.price ∧ o.live := by
    unfold Order.live
    decide
  have hAa : ∀ L ∈ (Book.init.add_order 100 5 Side.SELL OrderType.LIMIT).2.2.asks,
      ∀ o ∈ L.orders, o.side = Side.SELL ∧ o.price = L.price ∧ o.live := by
    unfold Order.live
    decide
  exact ⟨hAb, hAa,
    (C1_trade_fields (Book.init.add_order 100 5 Side.SELL OrderType.LIMIT).2.2
      101 3 Side.BUY OrderType.LIMIT hAb hAa).1⟩

/-! ## Quantity conservation (C2) -/

theorem add_order_volume (b : Book) (p : ℚ) (q : Nat) (s : Side) (ty : OrderType) :
    (b.add_order p q s ty).2.2.total_volume =
      b.total_volume + ((b.add_order p q s ty).2.1.map Trade.quantity).sum := by
  by_cases hr : q = 0 ∨ p < 0 ∨ (ty = OrderType.LIMIT ∧ p ≤ 0)
  · rw [add_order_rejected b p q s ty hr]
    simp
  · obtain ⟨h1, h2, h3⟩ := accept_conds p q ty hr
    cases s <;> simp only [Book.add_order, if_neg h1, if_neg h2, if_neg h3] <;>
      (try (split <;> rfl))

theorem add_market_order_volume (b : Book) (q : Nat) (s : Side) :
    (b.add_market_order q s).2.total_volume =
      b.total_volume + ((b.add_market_order q s).1.map Trade.quantity).sum := by
  by_cases hq : q = 0
  · rw [hq, add_market_order_zero b s]
    simp
  · cases s <;> simp only [Book.add_market_order, if_neg hq] <;> rfl

theorem runOps_volume (ops : List Op) :
    Op.clear ∉ ops → ∀ b : Book,
      (b.runOps ops).book.total_volume =
        b.total_volume + ((b.runOps ops).trades.map Trade.quantity).sum := by
  induction ops with
  | nil =>
    intro _ b
    rfl
  | cons op ops IH =>
    intro hnc b
    have hnc2 : Op.clear ∉ ops := fun hm => hnc (List.mem_cons_of_mem _ hm)
    have step : (b.applyOp op).book.total_volume =
        b.total_volume + ((b.applyOp op).trades.map Trade.quantity).sum := by
      cases op with
      | add p q s ty => simpa [Book.applyOp] using add_order_volume b p q s ty
      | market q s => simpa [Book.applyOp] using add_market_order_volume b q s
      | cancel oid => simp [Book.applyOp, (cancel_order_counters b oid).2.2.2]
      | clear => exact absurd (List.mem_cons_self _ _) hnc
    have hrun : (b.runOps (op :: ops)).trades =
        (b.applyOp op).trades ++ ((b.applyOp op).book.runOps ops).trades := rfl
    show ((b.applyOp op).book.runOps ops).book.total_volume = _
    rw [IH hnc2 (b.applyOp op).book, step, hrun]
    simp only [List.map_append, List.sum_append]
    omega

theorem moLoop_conserves (s' : Side) (ladder : List PriceLevel) (idx : List IndexEntry)
    (ntid : Nat) (inc : Order) (trades0 : List Trade)
    (hA : ∀ L ∈ ladder, ∀ o ∈ L.orders, o.side = s' ∧ o.price = L.price ∧ o.live)
    (hI : inc.incOK) :
    ∀ t ∈ (moLoop ladder idx ntid inc trades0).trades,
      t ∈ trades0 ∨
      ∃ incB restB : Order,
        (incB.fill t.quantity).filled_qty = incB.filled_qty + t.quantity ∧
        (restB.fill t.quantity).filled_qty = restB.filled_qty + t.quantity ∧
        t.buy_order_id = (if incB.side = Side.BUY then incB.order_id else restB.order_id) ∧
        t.sell_order_id = (if incB.side = Side.SELL then incB.order_id else restB.order_id) := by
  intro t ht
  rcases moLoop_emission s' ladder idx ntid inc trades0 hA hI t ht with h1 | h1
  · exact Or.inl h1
  · obtain ⟨incB, restB, _, _, _, _, _, _, _, _, f3, f4, f5, f6⟩ := h1
    exact Or.inr ⟨incB, restB, f5, f6, f3, f4⟩

/-- C2: each trade of quantity q credits exactly q to the filled_qty of
both participating orders and adds q to total_volume exactly once; over
any clear-free run after a clear, total_volume equals the sum of the
quantities of the trades produced since. -/
theorem C2_quantity_conservation (b : Book) (p : ℚ) (q : Nat) (s : Side) (ty : OrderType)
    (oid : Nat) (ops : List Op)
    (hAb : ∀ L ∈ b.bids, ∀ o ∈ L.orders, o.side = Side.BUY ∧ o.price = L.price ∧ o.live)
    (hAa : ∀ L ∈ b.asks, ∀ o ∈ L.orders, o.side = Side.SELL ∧ o.price = L.price ∧ o.live)
    (hnc : Op.clear ∉ ops) :
    (∀ t ∈ (b.add_order p q s ty).2.1,
      ∃ incB restB : Order,
        (incB.fill t.quantity).filled_qty = incB.filled_qty + t.quantity ∧
        (restB.fill t.quantity).filled_qty = restB.filled_qty + t.quantity ∧
        t.buy_order_id = (if incB.side = Side.BUY then incB.order_id else restB.order_id) ∧
        t.sell_order_id = (if incB.side = Side.SELL then incB.order_id else restB.order_id)) ∧
    (∀ t ∈ (b.add_market_order q s).1,
      ∃ incB restB : Order,
        (incB.fill t.quantity).filled_qty = incB.filled_qty + t.quantity ∧
        (restB.fill t.quantity).filled_qty = restB.filled_qty + t.quantity ∧
        t.buy_order_id = (if incB.side = Side.BUY then incB.order_id else restB.order_id) ∧
        t.sell_order_id = (if incB.side = Side.SELL then incB.order_id else restB.order_id)) ∧
    ((b.add_order p q s ty).2.2.total_volume =
      b.total_volume + ((b.add_order p q s ty).2.1.map Trade.quantity).sum) ∧
    ((b.add_market_order q s).2.total_volume =
      b.total_volume + ((b.add_market_order q s).1.map Trade.quantity).sum) ∧
    ((b.cancel_order oid).2.total_volume = b.total_volume) ∧
    ((b.clear.runOps ops).book.total_volume =
      ((b.clear.runOps ops).trades.map Trade.quantity).sum) := by
  refine ⟨?_, ?_, add_order_volume b p q s ty, add_market_order_volume b q s,
    (cancel_order_counters b oid).2.2.2, ?_⟩
  · by_cases hr : q = 0 ∨ p < 0 ∨ (ty = OrderType.LIMIT ∧ p ≤ 0)
    · rw [add_order_rejected b p q s ty hr]
      intro t ht
      simp at ht
    · have htr := add_order_trades_eq b p q s ty hr
      rw [htr]
      cases s
      · intro t ht
        rcases moLoop_conserves Side.SELL b.asks b.index b.next_trade_id _ [] hAa
            (fresh_incOK _ _ _ _ _) t ht with h | h
        · simp at h
        · exact h
      · intro t ht
        rcases moLoop_conserves Side.BUY b.bids b.index b.next_trade_id _ [] hAb
            (fresh_incOK _ _ _ _ _) t ht with h | h
        · simp at h
        · exact h
  · by_cases hq : q = 0
    · rw [hq, add_market_order_zero b s]
      intro t ht
      simp at ht
    · have htr := add_market_trades_eq b q s hq
      rw [htr]
      cases s
      · intro t ht
        rcases moLoop_conserves Side.SELL b.asks b.index b.next_trade_id _ [] hAa
            (fresh_incOK _ _ _ _ _) t ht with h | h
        · simp at h
        · exact h
      · intro t ht
        rcases moLoop_conserves Side.BUY b.bids b.index b.next_trade_id _ [] hAb
            (fresh_incOK _ _ _ _ _) t ht with h | h
        · simp at h
        · exact h
  · rw [runOps_volume ops hnc b.clear]
    simp [Book.clear]

/-- Witness for C2 on a one-ask book crossed by an incoming buy. -/
theorem C2_witness :
    ((Book.init.add_order 100 5 Side.SELL OrderType.LIMIT).2.2.add_order
        101 3 Side.BUY OrderType.LIMIT).2.2.total_volume =
      (Book.init.add_order 100 5 Side.SELL OrderType.LIMIT).2.2.total_volume +
      ((((Book.init.add_order 100 5 Side.SELL OrderType.LIMIT).2.2.add_order
        101 3 Side.BUY OrderType.LIMIT).2.1).map Trade.quantity).sum :=
  (C2_quantity_conservation (Book.init.add_order 100 5 Side.SELL OrderType.LIMIT).2.2
    101 3 Side.BUY OrderType.LIMIT 1 []
    (by unfold Order.live; decide) (by unfold Order.live; decide)
    (by simp)).2.2.1

/-! ## Residual handling (C5) -/

theorem pmLoop_orders_pred (P : Order → Prop) (hP : ∀ o q, P o → P (o.fill q))
    (price : ℚ) (orders : List Order) :
    ∀ (tq : Nat) (idx : List IndexEntry) (ntid : Nat) (inc : Order) (trades : List Trade),
      (∀ o ∈ orders, P o) →
      ∀ o ∈ (pmLoop price orders tq idx ntid inc trades).orders, P o := by
  induction orders with
  | nil =>
    intro tq idx ntid inc trades hA o ho
    simp [pmLoop] at ho
  | cons resting rest IH =>
    intro tq idx ntid inc trades hA
    by_cases h0 : inc.remaining_qty = 0
    · simpa [pmLoop, h0] using hA
    simp only [pmLoop, if_neg h0]
    split
    · exact IH _ _ _ _ _ (fun o ho => hA o (List.mem_cons_of_mem _ ho))
    · intro o ho
      rcases List.mem_cons.mp ho with rfl | h2
      · exact hP resting _ (hA resting (List.mem_cons_self _ _))
      · exact hA o (List.mem_cons_of_mem _ h2)

theorem moLoop_orders_pred (P : Order → Prop) (hP : ∀ o q, P o → P (o.fill q))
    (ladder : List PriceLevel) :
    ∀ (idx : List IndexEntry) (ntid : Nat) (inc : Order) (trades : List Trade),
      (∀ L ∈ ladder, ∀ o ∈ L.orders, P o) →
      ∀ L ∈ (moLoop ladder idx ntid inc trades).ladder, ∀ o ∈ L.orders, P o := by
  induction ladder with
  | nil =>
    intro idx ntid inc trades hA L hL
    simp [moLoop] at hL
  | cons lvl restL IH =>
    intro idx ntid inc trades hA
    by_cases h0 : inc.remaining_qty = 0
    · simpa [moLoop, h0] using hA
    by_cases hc : crossable inc lvl.price
    · simp only [moLoop, if_neg h0, if_pos hc]
      split
      · exact IH _ _ _ _ (fun L hL => hA L (List.mem_cons_of_mem _ hL))
      · intro L hL
        rcases List.mem_cons.mp hL with rfl | h2
        · intro o ho
          exact pmLoop_orders_pred P hP lvl.price lvl.orders _ _ _ _ _
            (hA lvl (List.mem_cons_self _ _)) o ho
        · exact hA L (List.mem_cons_of_mem _ h2)
    · simpa [moLoop, h0, hc] using hA

theorem pmLoop_index_sub (price : ℚ) (orders : List Order) :
    ∀ (tq : Nat) (idx : List IndexEntry) (ntid : Nat) (inc : Order) (trades : List Trade),
      ∀ e ∈ (pmLoop price orders tq idx ntid inc trades).index, e ∈ idx := by
  induction orders with
  | nil => intro tq idx ntid inc trades e he; exact he
  | cons resting rest IH =>
    intro tq idx ntid inc trades
    by_cases h0 : inc.remaining_qty = 0
    · simp [pmLoop, h0]
    simp only [pmLoop, if_neg h0]
    split
    · intro e he
      have := IH _ _ _ _ _ e he
      exact List.mem_of_mem_filter this
    · intro e he
      exact he

theorem moLoop_index_sub (ladder : List PriceLevel) :
    ∀ (idx : List IndexEntry) (ntid : Nat) (inc : Order) (trades : List Trade),
      ∀ e ∈ (moLoop ladder idx ntid inc trades).index, e ∈ idx := by
  induction ladder with
  | nil => intro idx ntid inc trades e he; exact he
  | cons lvl restL IH =>
    intro idx ntid inc trades
    by_cases h0 : inc.remaining_qty = 0
    · simp [moLoop, h0]
    by_cases hc : crossable inc lvl.price
    · simp only [moLoop, if_neg h0, if_pos hc]
      split
      · intro e he
        exact pmLoop_index_sub lvl.price lvl.orders _ _ _ _ _ e (IH _ _ _ _ e he)
      · intro e he
        exact pmLoop_index_sub lvl.price lvl.orders _ _ _ _ _ e he
    · simp [moLoop, h0, hc]

theorem bidsInsert_mem (o : Order) (ls : List PriceLevel) :
    ∃ L ∈ bidsInsert o ls, L.price = o.price ∧ o ∈ L.orders := by
  induction ls with
  | nil =>
    refine ⟨PriceLevel.add_order ⟨o.price, 0, []⟩ o, List.mem_singleton_self _, rfl, ?_⟩
    simp [PriceLevel.add_order]
  | cons lvl rest IH =>
    unfold bidsInsert
    split
    · rename_i hp
      refine ⟨PriceLevel.add_order lvl o, List.mem_cons_self _ _, ?_, ?_⟩
      · show lvl.price = o.price
        exact hp.symm
      · simp [PriceLevel.add_order]
    · split
      · refine ⟨PriceLevel.add_order ⟨o.price, 0, []⟩ o, List.mem_cons_self _ _, rfl, ?_⟩
        simp [PriceLevel.add_order]
      · obtain ⟨L, hL, h1, h2⟩ := IH
        exact ⟨L, List.mem_cons_of_mem _ hL, h1, h2⟩

theorem asksInsert_mem (o : Order) (ls : List PriceLevel) :
    ∃ L ∈ asksInsert o ls, L.price = o.price ∧ o ∈ L.orders := by
  induction ls with
  | nil =>
    refine ⟨PriceLevel.add_order ⟨o.price, 0, []⟩ o, List.mem_singleton_self _, rfl, ?_⟩
    simp [PriceLevel.add_order]
  | cons lvl rest IH =>
    unfold asksInsert
    split
    · rename_i hp
      refine ⟨PriceLevel.add_order lvl o, List.mem_cons_self _ _, ?_, ?_⟩
      · show lvl.price = o.price
        exact hp.symm
      · simp [PriceLevel.add_order]
    · split
      · refine ⟨PriceLevel.add_order ⟨o.price, 0, []⟩ o, List.mem_cons_self _ _, rfl, ?_⟩
        simp [PriceLevel.add_order]
      · obtain ⟨L, hL, h1, h2⟩ := IH
        exact ⟨L, List.mem_cons_of_mem _ hL, h1, h2⟩

theorem market_no_rest (b : Book) (q : Nat) (s : Side)
    (hfq : ∀ L ∈ b.bids ++ b.asks, ∀ o ∈ L.orders, o.order_id ≠ b.next_order_id)
    (hfi : ∀ e ∈ b.index, e.order_id ≠ b.next_order_id) :
    (∀ L ∈ (b.add_market_order q s).2.bids ++ (b.add_market_order q s).2.asks,
      ∀ o ∈ L.orders, o.order_id ≠ b.next_order_id) ∧
    (∀ e ∈ (b.add_market_order q s).2.index, e.order_id ≠ b.next_order_id) := by
  have hfb : ∀ L ∈ b.bids, ∀ o ∈ L.orders, o.order_id ≠ b.next_order_id :=
    fun L hL => hfq L (List.mem_append_left _ hL)
  have hfa : ∀ L ∈ b.asks, ∀ o ∈ L.orders, o.order_id ≠ b.next_order_id :=
    fun L hL => hfq L (List.mem_append_right _ hL)
  have hPfill : ∀ (o : Order) (q' : Nat),
      o.order_id ≠ b.next_order_id → (o.fill q').order_id ≠ b.next_order_id := by
    intro o q' hp
    rw [Order.fill_order_id]
    exact hp
  by_cases hq : q = 0
  · rw [hq, add_market_order_zero b s]
    exact ⟨hfq, hfi⟩
  cases s
  · simp only [Book.add_market_order, if_neg hq]
    constructor
    · intro L hL
      rcases List.mem_append.mp hL with h | h
      · exact hfb L h
      · exact moLoop_orders_pred (fun o => o.order_id ≠ b.next_order_id) hPfill
          b.asks _ _ _ _ hfa L h
    · intro e he
      exact hfi e (moLoop_index_sub b.asks _ _ _ _ e he)
  · simp only [Book.add_market_order, if_neg hq]
    constructor
    · intro L hL
      rcases List.mem_append.mp hL with h | h
      · exact moLoop_orders_pred (fun o => o.order_id ≠ b.next_order_id) hPfill
          b.bids _ _ _ _ hfb L h
      · exact hfa L h
    · intro e he
      exact hfi e (moLoop_index_sub b.bids _ _ _ _ e he)

theorem add_order_market_no_rest (b : Book) (p : ℚ) (q : Nat) (s : Side)
    (hfq : ∀ L ∈ b.bids ++ b.asks, ∀ o ∈ L.orders, o.order_id ≠ b.next_order_id)
    (hfi : ∀ e ∈ b.index, e.order_id ≠ b.next_order_id) :
    (∀ L ∈ (b.add_order p q s OrderType.MARKET).2.2.bids ++
        (b.add_order p q s OrderType.MARKET).2.2.asks,
      ∀ o ∈ L.orders, o.order_id ≠ b.next_order_id) ∧
    (∀ e ∈ (b.add_order p q s OrderType.MARKET).2.2.index,
      e.order_id ≠ b.next_order_id) := by
  have hfb : ∀ L ∈ b.bids, ∀ o ∈ L.orders, o.order_id ≠ b.next_order_id :=
    fun L hL => hfq L (List.mem_append_left _ hL)
  have hfa : ∀ L ∈ b.asks, ∀ o ∈ L.orders, o.order_id ≠ b.next_order_id :=
    fun L hL => hfq L (List.mem_append_right _ hL)
  have hPfill : ∀ (o : Order) (q' : Nat),
      o.order_id ≠ b.next_order_id → (o.fill q').order_id ≠ b.next_order_id := by
    intro o q' hp
    rw [Order.fill_order_id]
    exact hp
  by_cases hr : q = 0 ∨ p < 0 ∨ (OrderType.MARKET = OrderType.LIMIT ∧ p ≤ 0)
  · rw [add_order_rejected b p q s OrderType.MARKET hr]
    exact ⟨hfq, hfi⟩
  obtain ⟨h1, h2, h3⟩ := accept_conds p q OrderType.MARKET hr
  have hnl : ∀ (o : Order),
      ¬(o.remaining_qty > 0 ∧ OrderType.MARKET = OrderType.LIMIT ∧
        o.status ≠ OrderStatus.CANCELLED) := by
    rintro o ⟨_, hx, _⟩
    cases hx
  cases s
  · simp only [Book.add_order, if_neg h1, if_neg h2, if_neg h3, if_neg (hnl _)]
    constructor
    · intro L hL
      rcases List.mem_append.mp hL with h | h
      · exact hfb L h
      · exact moLoop_orders_pred (fun o => o.order_id ≠ b.next_order_id) hPfill
          b.asks _ _ _ _ hfa L h
    · intro e he
      exact hfi e (moLoop_index_sub b.asks _ _ _ _ e he)
  · simp only [Book.add_order, if_neg h1, if_neg h2, if_neg h3, if_neg (hnl _)]
    constructor
    · intro L hL
      rcases List.mem_append.mp hL with h | h
      · exact moLoop_orders_pred (fun o => o.order_id ≠ b.next_order_id) hPfill
          b.bids _ _ _ _ hfb L h
      · exact hfa L h
    · intro e he
      exact hfi e (moLoop_index_sub b.bids _ _ _ _ e he)

theorem limit_residual_rests_buy (b : Book) (p : ℚ) (q : Nat)
    (hr : ¬(q = 0 ∨ p < 0 ∨ (OrderType.LIMIT = OrderType.LIMIT ∧ p ≤ 0)))
    (hrem : (moLoop b.asks b.index b.next_trade_id
        ⟨b.next_order_id, p, q, 0, Side.BUY, OrderType.LIMIT, OrderStatus.NEW⟩
        []).inc.remaining_qty > 0)
    (hst : (moLoop b.asks b.index b.next_trade_id
        ⟨b.next_order_id, p, q, 0, Side.BUY, OrderType.LIMIT, OrderStatus.NEW⟩
        []).inc.status ≠ OrderStatus.CANCELLED) :
    (∃ e ∈ (b.add_order p q Side.BUY OrderType.LIMIT).2.2.index,
      e.order_id = b.next_order_id) ∧
    ∃ L ∈ (b.add_order p q Side.BUY OrderType.LIMIT).2.2.bids,
      L.price = p ∧ ∃ o ∈ L.orders, o.order_id = b.next_order_id := by
  obtain ⟨h1, h2, h3⟩ := accept_conds p q OrderType.LIMIT hr
  unfold Book.add_order
  rw [if_neg h1, if_neg h2, if_neg h3]
  simp only []
  rw [if_pos ⟨hrem, trivial, hst⟩]
  obtain ⟨f1, _, _, f4, _⟩ := moLoop_inc_fields b.asks b.index b.next_trade_id
    ⟨b.next_order_id, p, q, 0, Side.BUY, OrderType.LIMIT, OrderStatus.NEW⟩ []
  constructor
  · exact ⟨⟨b.next_order_id, Side.BUY, p⟩,
      List.mem_append_right _ (List.mem_singleton_self _), rfl⟩
  · obtain ⟨L, hL, hp, ho⟩ := bidsInsert_mem
      (moLoop b.asks b.index b.next_trade_id
        ⟨b.next_order_id, p, q, 0, Side.BUY, OrderType.LIMIT, OrderStatus.NEW⟩ []).inc
      b.bids
    exact ⟨L, hL, by rw [hp, f4], ⟨_, ho, f1⟩⟩

theorem limit_residual_rests_sell (b : Book) (p : ℚ) (q : Nat)
    (hr : ¬(q = 0 ∨ p < 0 ∨ (OrderType.LIMIT = OrderType.LIMIT ∧ p ≤ 0)))
    (hrem : (moLoop b.bids b.index b.next_trade_id
        ⟨b.next_order_id, p, q, 0, Side.SELL, OrderType.LIMIT, OrderStatus.NEW⟩
        []).inc.remaining_qty > 0)
    (hst : (moLoop b.bids b.index b.next_trade_id
        ⟨b.next_order_id, p, q, 0, Side.SELL, OrderType.LIMIT, OrderStatus.NEW⟩
        []).inc.status ≠ OrderStatus.CANCELLED) :
    (∃ e ∈ (b.add_order p q Side.SELL OrderType.LIMIT).2.2.index,
      e.order_id = b.next_order_id) ∧
    ∃ L ∈ (b.add_order p q Side.SELL OrderType.LIMIT).2.2.asks,
      L.price = p ∧ ∃ o ∈ L.orders, o.order_id = b.next_order_id := by
  obtain ⟨h1, h2, h3⟩ := accept_conds p q OrderType.LIMIT hr
  unfold Book.add_order
  rw [if_neg h1, if_neg h2, if_neg h3]
  simp only []
  rw [if_pos ⟨hrem, trivial, hst⟩]
  obtain ⟨f1, _, _, f4, _⟩ := moLoop_inc_fields b.bids b.index b.next_trade_id
    ⟨b.next_order_id, p, q, 0, Side.SELL, OrderType.LIMIT, OrderStatus.NEW⟩ []
  constructor
  · exact ⟨⟨b.next_order_id, Side.SELL, p⟩,
      List.mem_append_right _ (List.mem_singleton_self _), rfl⟩
  · obtain ⟨L, hL, hp, ho⟩ := asksInsert_mem
      (moLoop b.bids b.index b.next_trade_id
        ⟨b.next_order_id, p, q, 0, Side.SELL, OrderType.LIMIT, OrderStatus.NEW⟩ []).inc
      b.asks
    exact ⟨L, hL, by rw [hp, f4], ⟨_, ho, f1⟩⟩

/-- C5: a market order — through add_market_order or add_order with type
MARKET — is never inserted into a ladder and never placed in the id
index, whatever residual remains; an accepted limit order with a positive
residual after matching and status not CANCELLED is registered in the id
index and queued in the same-side ladder at a level bearing its own limit
price, created on demand. -/
theorem C5_market_drops_limit_rests (b : Book) (p : ℚ) (q : Nat) (s : Side)
    (hfq : ∀ L ∈ b.bids ++ b.asks, ∀ o ∈ L.orders, o.order_id ≠ b.next_order_id)
    (hfi : ∀ e ∈ b.index, e.order_id ≠ b.next_order_id) :
    (∀ L ∈ (b.add_market_order q s).2.bids ++ (b.add_market_order q s).2.asks,
      ∀ o ∈ L.orders, o.order_id ≠ b.next_order_id) ∧
    (∀ e ∈ (b.add_market_order q s).2.index, e.order_id ≠ b.next_order_id) ∧
    (∀ L ∈ (b.add_order p q s OrderType.MARKET).2.2.bids ++
        (b.add_order p q s OrderType.MARKET).2.2.asks,
      ∀ o ∈ L.orders, o.order_id ≠ b.next_order_id) ∧
    (∀ e ∈ (b.add_order p q s OrderType.MARKET).2.2.index,
      e.order_id ≠ b.next_order_id) ∧
    (¬(q = 0 ∨ p < 0 ∨ (OrderType.LIMIT = OrderType.LIMIT ∧ p ≤ 0)) →
      (moLoop b.asks b.index b.next_trade_id
          ⟨b.next_order_id, p, q, 0, Side.BUY, OrderType.LIMIT, OrderStatus.NEW⟩
          []).inc.remaining_qty > 0 →
      (moLoop b.asks b.index b.next_trade_id
          ⟨b.next_order_id, p, q, 0, Side.BUY, OrderType.LIMIT, OrderStatus.NEW⟩
          []).inc.status ≠ OrderStatus.CANCELLED →
      (∃ e ∈ (b.add_order p q Side.BUY OrderType.LIMIT).2.2.index,
        e.order_id = b.next_order_id) ∧
      ∃ L ∈ (b.add_order p q Side.BUY OrderType.LIMIT).2.2.bids,
        L.price = p ∧ ∃ o ∈ L.orders, o.order_id = b.next_order_id) ∧
    (¬(q = 0 ∨ p < 0 ∨ (OrderType.LIMIT = OrderType.LIMIT ∧ p ≤ 0)) →
      (moLoop b.bids b.index b.next_trade_id
          ⟨b.next_order_id, p, q, 0, Side.SELL, OrderType.LIMIT, OrderStatus.NEW⟩
          []).inc.remaining_qty > 0 →
      (moLoop b.bids b.index b.next_trade_id
          ⟨b.next_order_id, p, q, 0, Side.SELL, OrderType.LIMIT, OrderStatus.NEW⟩
          []).inc.status ≠ OrderStatus.CANCELLED →
      (∃ e ∈ (b.add_order p q Side.SELL OrderType.LIMIT).2.2.index,
        e.order_id = b.next_order_id) ∧
      ∃ L ∈ (b.add_order p q Side.SELL OrderType.LIMIT).2.2.asks,
        L.price = p ∧ ∃ o ∈ L.orders, o.order_id = b.next_order_id) := by
  obtain ⟨m1, m2⟩ := market_no_rest b q s hfq hfi
  obtain ⟨m3, m4⟩ := add_order_market_no_rest b p q s hfq hfi
  exact ⟨m1, m2, m3, m4,
    fun hr hrem hst => limit_residual_rests_buy b p q hr hrem hst,
    fun hr hrem hst => limit_residual_rests_sell b p q hr hrem hst⟩

/-- Witness for C5 on the fresh book. -/
theorem C5_witness :
    (∀ L ∈ (Book.init.add_market_order 5 Side.BUY).2.bids ++
        (Book.init.add_market_order 5 Side.BUY).2.asks,
      ∀ o ∈ L.orders, o.order_id ≠ Book.init.next_order_id) ∧
    (∀ e ∈ (Book.init.add_market_order 5 Side.BUY).2.index,
      e.order_id ≠ Book.init.next_order_id) :=
  ⟨(C5_market_drops_limit_rests Book.init 100 5 Side.BUY
      (by intro L hL; simp [Book.init] at hL)
      (by intro e he; simp [Book.init] at he)).1,
   (C5_market_drops_limit_rests Book.init 100 5 Side.BUY
      (by intro L hL; simp [Book.init] at hL)
      (by intro e he; simp [Book.init] at he)).2.1⟩

/-! ## Cancellation (C7) -/

/-- The same-side ladder of the book for a given side. -/
def Book.sideLadder (b : Book) : Side → List PriceLevel
  | Side.BUY => b.bids
  | Side.SELL => b.asks

theorem Order.cancel_order_id (o : Order) : o.cancel.order_id = o.order_id := by
  unfold Order.cancel
  split
  · rfl
  · rfl

theorem indexFind_none_of_not_mem (l : List IndexEntry) (oid : Nat)
    (h : oid ∉ l.map IndexEntry.order_id) : indexFind l oid = none := by
  rcases hf : indexFind l oid with _ | x
  · rfl
  · exfalso
    have hx := List.find?_some hf
    have hm := List.mem_of_find?_eq_some hf
    simp only [beq_iff_eq] at hx
    exact h (List.mem_map.mpr ⟨x, hm, hx⟩)

theorem indexFind_filter_ne (l : List IndexEntry) (oid : Nat) :
    indexFind (l.filter (fun x => x.order_id ≠ oid)) oid = none := by
  rcases hf : indexFind (l.filter (fun x => x.order_id ≠ oid)) oid with _ | x
  · rfl
  · exfalso
    have hx := List.find?_some hf
    have hm := List.mem_of_find?_eq_some hf
    simp only [beq_iff_eq] at hx
    have := List.of_mem_filter hm
    simp only [decide_eq_true_eq] at this
    exact this hx

theorem ladderCancel_spec (p : ℚ) (oid : Nat) (ls : List PriceLevel)
    (hnd : (ls.map PriceLevel.price).Nodup)
    (hne : ∀ L ∈ ls, L.orders ≠ [])
    (L : PriceLevel) (hL : L ∈ ls) (hLp : L.price = p)
    (o : Order) (ho : o ∈ L.orders) (hid : o.order_id = oid) :
    (ladderCancel p oid ls).1 = true ∧
    (∀ L' ∈ (ladderCancel p oid ls).2, L'.price = p →
      ∀ o' ∈ L'.orders, o'.order_id ≠ oid) ∧
    (∀ L' ∈ (ladderCancel p oid ls).2, L'.orders ≠ []) := by
  induction ls with
  | nil => cases hL
  | cons lvl rest IH =>
    simp only [List.map_cons, List.nodup_cons] at hnd
    by_cases hp : lvl.price = p
    · have hLlvl : L = lvl := by
        rcases List.mem_cons.mp hL with rfl | h2
        · rfl
        · exfalso
          apply hnd.1
          rw [hp, ← hLp]
          exact List.mem_map.mpr ⟨L, h2, rfl⟩
      subst hLlvl
      have hrests : ∀ L' ∈ rest, L'.price ≠ p := by
        intro L' hL' he
        apply hnd.1
        rw [hp, ← he]
        exact List.mem_map.mpr ⟨L', hL', rfl⟩
      unfold ladderCancel
      rw [if_pos hp]
      simp only []
      obtain ⟨s1, s2, s3⟩ := removeLoop_spec oid
        (L.orders.map (fun x => if x.order_id = oid then x.cancel else x)) false []
        L.total_quantity
      have hfound : (PriceLevel.removeLoop oid
          (L.orders.map (fun x => if x.order_id = oid then x.cancel else x)) false []
          L.total_quantity).1 = true := by
        rw [s1]
        simp only [Bool.false_or, List.any_eq_true]
        refine ⟨if o.order_id = oid then o.cancel else o, List.mem_map_of_mem _ ho, ?_⟩
        rw [if_pos hid]
        simp [Order.cancel_order_id, hid]
      have hkept : ∀ o' ∈ (PriceLevel.removeLoop oid
          (L.orders.map (fun x => if x.order_id = oid then x.cancel else x)) false []
          L.total_quantity).2.1, o'.order_id ≠ oid := by
        rw [s2]
        intro o' ho'
        simp only [List.nil_append] at ho'
        have := List.of_mem_filter ho'
        simpa using this
      split
      · refine ⟨hfound, ?_, ?_⟩
        · intro L' hL' hLp' o' ho'
          exact absurd hLp' (hrests L' hL')
        · intro L' hL'
          exact hne L' (List.mem_cons_of_mem _ hL')
      · rename_i hempty
        refine ⟨hfound, ?_, ?_⟩
        · intro L' hL' hLp' o' ho'
          rcases List.mem_cons.mp hL' with rfl | h2
          · exact hkept o' ho'
          · exact absurd hLp' (hrests L' h2)
        · intro L' hL'
          rcases List.mem_cons.mp hL' with rfl | h2
          · intro he
            apply hempty
            rw [he]
            rfl
          · exact hne L' (List.mem_cons_of_mem _ h2)
    · have hLrest : L ∈ rest := by
        rcases List.mem_cons.mp hL with rfl | h2
        · exact absurd hLp hp
        · exact h2
      obtain ⟨i1, i2, i3⟩ := IH hnd.2 (fun x hx => hne x (List.mem_cons_of_mem _ hx))
        hLrest
      unfold ladderCancel
      rw [if_neg hp]
      refine ⟨i1, ?_, ?_⟩
      · intro L' hL' hLp' o' ho'
        rcases List.mem_cons.mp hL' with rfl | h2
        · exact absurd hLp' hp
        · exact i2 L' h2 hLp' o' ho'
      · intro L' hL'
        rcases List.mem_cons.mp hL' with rfl | h2
        · exact hne L' (List.mem_cons_self _ _)
        · exact i3 L' h2

/-- C7: cancel_order returns false and changes nothing when the id is not
in the index; otherwise it flips the order's status to CANCELLED, removes
it from its PriceLevel (erasing the level if it empties), removes the id
from the index and returns the level's removal report (true here), so a
second cancel of the same id returns false. -/
theorem C7_cancel_order (b : Book) (oid : Nat) :
    (oid ∉ b.index.map IndexEntry.order_id → b.cancel_order oid = (false, b)) ∧
    (∀ e, indexFind b.index oid = some e →
      ((b.sideLadder e.side).map PriceLevel.price).Nodup →
      (∀ L ∈ b.sideLadder e.side, L.orders ≠ []) →
      ∀ L ∈ b.sideLadder e.side, L.price = e.price →
      ∀ o ∈ L.orders, o.order_id = oid → o.live →
        (b.cancel_order oid).1 = true ∧
        (Order.cancel o).status = OrderStatus.CANCELLED ∧
        (∀ x ∈ (b.cancel_order oid).2.index, x.order_id ≠ oid) ∧
        (∀ L' ∈ (b.cancel_order oid).2.sideLadder e.side, L'.price = e.price →
          ∀ o' ∈ L'.orders, o'.order_id ≠ oid) ∧
        (∀ L' ∈ (b.cancel_order oid).2.sideLadder e.side, L'.orders ≠ []) ∧
        ((b.cancel_order oid).2.cancel_order oid).1 = false) := by
  constructor
  · intro hnm
    have hf := indexFind_none_of_not_mem b.index oid hnm
    simp [Book.cancel_order, hf]
  · intro e hfind hnd hne L hL hLp o ho hid hlive
    have hflip : (Order.cancel o).status = OrderStatus.CANCELLED := by
      unfold Order.cancel
      rw [if_pos hlive.1]
    have hidx : ∀ x ∈ b.index.filter (fun x => x.order_id ≠ oid), x.order_id ≠ oid := by
      intro x hx
      have := List.of_mem_filter hx
      simpa using this
    obtain ⟨eid, eside, eprice⟩ := e
    cases eside
    · obtain ⟨c1, c2, c3⟩ := ladderCancel_spec eprice oid b.bids hnd hne L hL hLp o ho hid
      simp only [Book.cancel_order, hfind]
      refine ⟨c1, hflip, hidx, c2, c3, ?_⟩
      have hf2 : indexFind (b.index.filter (fun x => x.order_id ≠ oid)) oid = none :=
        indexFind_filter_ne b.index oid
      simp only [ne_eq, decide_not] at hf2
      simp [Book.cancel_order, hf2]
    · obtain ⟨c1, c2, c3⟩ := ladderCancel_spec eprice oid b.asks hnd hne L hL hLp o ho hid
      simp only [Book.cancel_order, hfind]
      refine ⟨c1, hflip, hidx, c2, c3, ?_⟩
      have hf2 : indexFind (b.index.filter (fun x => x.order_id ≠ oid)) oid = none :=
        indexFind_filter_ne b.index oid
      simp only [ne_eq, decide_not] at hf2
      simp [Book.cancel_order, hf2]

/-- Witness for C7: cancelling the resting order of a one-order book. -/
theorem C7_witness :
    ((Book.init.add_order 100 5 Side.BUY OrderType.LIMIT).2.2.cancel_order 1).1 = true ∧
    (((Book.init.add_order 100 5 Side.BUY OrderType.LIMIT).2.2.cancel_order 1).2.cancel_order
        1).1 = false := by
  have h := (C7_cancel_order (Book.init.add_order 100 5 Side.BUY OrderType.LIMIT).2.2 1).2
    ⟨1, Side.BUY, 100⟩ (by rfl) (by decide) (by decide)
    ⟨100, 5, [⟨1, 100, 5, 0, Side.BUY, OrderType.LIMIT, OrderStatus.NEW⟩]⟩ (by decide) rfl
    ⟨1, 100, 5, 0, Side.BUY, OrderType.LIMIT, OrderStatus.NEW⟩ (by decide) rfl
    (by unfold Order.live; decide)
  exact ⟨h.1, h.2.2.2.2.2⟩

/-! ## Uncrossed book (C3) -/

theorem Order.fill_remaining_eq (o : Order) (q : Nat) (hq : q ≤ o.remaining_qty)
    (hst : q ≠ 0 → o.status ≠ OrderStatus.CANCELLED ∧ o.status ≠ OrderStatus.FILLED) :
    (o.fill q).remaining_qty = o.remaining_qty - q := by
  have h1 := Order.fill_filled_add o q hq hst
  have h2 := Order.fill_quantity o q
  unfold Order.remaining_qty at *
  omega

theorem crossable_ext (a b : Order) (hs : a.side = b.side) (ht : a.type = b.type)
    (hp : a.price = b.price) (x : ℚ) : crossable a x ↔ crossable b x := by
  unfold crossable
  rw [hs, ht, hp]

theorem pmLoop_exit (price : ℚ) (orders : List Order) :
    ∀ (tq : Nat) (idx : List IndexEntry) (ntid : Nat) (inc : Order) (trades : List Trade),
      (∀ o ∈ orders, o.live) → inc.incOK →
      (pmLoop price orders tq idx ntid inc trades).orders = [] ∨
      (pmLoop price orders tq idx ntid inc trades).inc.remaining_qty = 0 := by
  induction orders with
  | nil =>
    intro tq idx ntid inc trades _ _
    left
    rfl
  | cons resting rest IH =>
    intro tq idx ntid inc trades hlv hI
    by_cases h0 : inc.remaining_qty = 0
    · right
      simp [pmLoop, h0]
    simp only [pmLoop, if_neg h0]
    split
    · exact IH _ _ _ _ _ (fun o ho => hlv o (List.mem_cons_of_mem _ ho))
        (Order.fill_incOK inc _ hI (Nat.min_le_left _ _))
    · right
      rename_i hnf
      have hlr := hlv resting (List.mem_cons_self _ _)
      have hrp : 0 < resting.remaining_qty := Order.live_remaining_pos _ hlr
      have hrfill := Order.fill_filled_add resting (min inc.remaining_qty resting.remaining_qty)
        (Nat.min_le_right _ _) (fun _ => by rcases hlr.1 with h1 | h1 <;> simp [h1])
      have hne : min inc.remaining_qty resting.remaining_qty ≠ resting.remaining_qty := by
        intro he
        apply hnf
        unfold Order.is_fully_filled
        rw [hrfill, Order.fill_quantity]
        simp only [beq_iff_eq]
        rw [he]
        have hflt := hlr.2
        unfold Order.remaining_qty
        omega
      have hqinc : min inc.remaining_qty resting.remaining_qty = inc.remaining_qty := by
        rcases Nat.le_total inc.remaining_qty resting.remaining_qty with h | h
        · exact Nat.min_eq_left h
        · exact absurd (Nat.min_eq_right h) hne
      show (inc.fill (min inc.remaining_qty resting.remaining_qty)).remaining_qty = 0
      rw [Order.fill_remaining_eq inc _ (Nat.min_le_left _ _) (fun _ => hI.2 h0), hqinc]
      omega

theorem moLoop_exit (ladder : List PriceLevel) :
    ∀ (idx : List IndexEntry) (ntid : Nat) (inc : Order) (trades : List Trade),
      (∀ L ∈ ladder, ∀ o ∈ L.orders, o.live) → inc.incOK →
      (moLoop ladder idx ntid inc trades).ladder = [] ∨
      (moLoop ladder idx ntid inc trades).inc.remaining_qty = 0 ∨
      (∃ lvl rest2, (moLoop ladder idx ntid inc trades).ladder = lvl :: rest2 ∧
        ¬crossable inc lvl.price) := by
  induction ladder with
  | nil =>
    intro idx ntid inc trades _ _
    left
    rfl
  | cons lvl restL IH =>
    intro idx ntid inc trades hlv hI
    by_cases h0 : inc.remaining_qty = 0
    · right
      left
      simp [moLoop, h0]
    by_cases hc : crossable inc lvl.price
    · simp only [moLoop, if_neg h0, if_pos hc]
      split
      · rcases IH _ _ _ _ (fun L hL => hlv L (List.mem_cons_of_mem _ hL))
            (pmLoop_incOK lvl.price lvl.orders _ _ _ _ _ hI) with h | h | hcx
        · left
          exact h
        · right
          left
          exact h
        · obtain ⟨lvl2, r2, he, hcx2⟩ := hcx
          right
          right
          refine ⟨lvl2, r2, he, fun hx => ?_⟩
          obtain ⟨_, f2, f3, f4, _⟩ := pmLoop_inc_fields lvl.price lvl.orders
            lvl.total_quantity idx ntid inc trades
          exact hcx2 ((crossable_ext _ inc f2 f3 f4 lvl2.price).mpr hx)
      · right
        left
        rename_i hnemp
        rcases pmLoop_exit lvl.price lvl.orders lvl.total_quantity idx ntid inc trades
            (hlv lvl (List.mem_cons_self _ _)) hI with h | h
        · exact absurd (by rw [h]; rfl) hnemp
        · exact h
    · right
      right
      exact ⟨lvl, restL, by simp [moLoop, h0, hc], hc⟩

theorem moLoop_prices_suffix (ladder : List PriceLevel) :
    ∀ (idx : List IndexEntry) (ntid : Nat) (inc : Order) (trades : List Trade),
      ∃ k, (moLoop ladder idx ntid inc trades).ladder.map PriceLevel.price =
        (ladder.map PriceLevel.price).drop k := by
  induction ladder with
  | nil => intro idx ntid inc trades; exact ⟨0, rfl⟩
  | cons lvl restL IH =>
    intro idx ntid inc trades
    by_cases h0 : inc.remaining_qty = 0
    · exact ⟨0, by simp [moLoop, h0]⟩
    by_cases hc : crossable inc lvl.price
    · simp only [moLoop, if_neg h0, if_pos hc]
      split
      · obtain ⟨k, hk⟩ := IH _ _ _ _
        exact ⟨k + 1, by rw [hk]; rfl⟩
      · exact ⟨0, rfl⟩
    · exact ⟨0, by simp [moLoop, h0, hc]⟩

theorem sublist_head_rel (R : ℚ → ℚ → Prop) (l la : List ℚ)
    (hp : l.Pairwise R) (hs : List.Sublist la l) (a h : ℚ)
    (ha : la.head? = some a) (hh : l.head? = some h) : h = a ∨ R h a := by
  cases l with
  | nil => cases hh
  | cons x t =>
    simp only [List.head?_cons, Option.some_inj] at hh
    subst hh
    have hmem : a ∈ la := by
      cases la with
      | nil => cases ha
      | cons y t' =>
        simp only [List.head?_cons, Option.some_inj] at ha
        subst ha
        exact List.mem_cons_self _ _
    rcases List.mem_cons.mp (hs.subset hmem) with rfl | hm
    · exact Or.inl rfl
    · exact Or.inr ((List.pairwise_cons.mp hp).1 a hm)

theorem asks_head_le (l la : List ℚ) (hsa : List.Chain' (· < ·) l) (hs : List.Sublist la l)
    (a h : ℚ) (ha : la.head? = some a) (hh : l.head? = some h) : h ≤ a := by
  rcases sublist_head_rel (· < ·) l la (List.chain'_iff_pairwise.mp hsa) hs a h ha hh
    with he | hlt
  · exact le_of_eq he
  · exact le_of_lt hlt

theorem bids_head_ge (l la : List ℚ) (hsb : List.Chain' (· > ·) l) (hs : List.Sublist la l)
    (a h : ℚ) (ha : la.head? = some a) (hh : l.head? = some h) : a ≤ h := by
  rcases sublist_head_rel (· > ·) l la (List.chain'_iff_pairwise.mp hsb) hs a h ha hh
    with he | hgt
  · exact le_of_eq he.symm
  · exact le_of_lt hgt

theorem bidsInsert_cons_head (o : Order) (lvl : PriceLevel) (rest : List PriceLevel) :
    ∃ L rest2, bidsInsert o (lvl :: rest) = L :: rest2 ∧ L.price = max o.price lvl.price := by
  unfold bidsInsert
  by_cases h1 : o.price = lvl.price
  · rw [if_pos h1]
    refine ⟨_, _, rfl, ?_⟩
    show lvl.price = max o.price lvl.price
    rw [h1, max_self]
  · rw [if_neg h1]
    by_cases h2 : lvl.price < o.price
    · rw [if_pos h2]
      refine ⟨_, _, rfl, ?_⟩
      show o.price = max o.price lvl.price
      rw [max_eq_left (le_of_lt h2)]
    · rw [if_neg h2]
      refine ⟨lvl, _, rfl, ?_⟩
      have h3 : o.price < lvl.price := lt_of_le_of_ne (not_lt.mp h2) h1
      rw [max_eq_right (le_of_lt h3)]

theorem asksInsert_cons_head (o : Order) (lvl : PriceLevel) (rest : List PriceLevel) :
    ∃ L rest2, asksInsert o (lvl :: rest) = L :: rest2 ∧ L.price = min o.price lvl.price := by
  unfold asksInsert
  by_cases h1 : o.price = lvl.price
  · rw [if_pos h1]
    refine ⟨_, _, rfl, ?_⟩
    show lvl.price = min o.price lvl.price
    rw [h1, min_self]
  · rw [if_neg h1]
    by_cases h2 : o.price < lvl.price
    · rw [if_pos h2]
      refine ⟨_, _, rfl, ?_⟩
      show o.price = min o.price lvl.price
      rw [min_eq_left (le_of_lt h2)]
    · rw [if_neg h2]
      refine ⟨lvl, _, rfl, ?_⟩
      have h3 : lvl.price < o.price := lt_of_le_of_ne (not_lt.mp h2) (fun he => h1 he.symm)
      rw [min_eq_right (le_of_lt h3)]

theorem ladderCancel_prices_sublist (p : ℚ) (oid : Nat) (ls : List PriceLevel) :
    List.Sublist ((ladderCancel p oid ls).2.map PriceLevel.price) (ls.map PriceLevel.price) := by
  induction ls with
  | nil => simp [ladderCancel]
  | cons lvl rest IH =>
    unfold ladderCancel
    split
    · simp only []
      split
      · exact List.sublist_cons_self _ _
      · exact List.Sublist.refl _
    · exact List.Sublist.cons₂ _ IH

theorem uncrossed_buy_post (bids asks : List PriceLevel) (idx : List IndexEntry)
    (ntid : Nat) (inc : Order)
    (hsa : List.Chain' (· < ·) (asks.map PriceLevel.price))
    (hu : ∀ lb la, bids.head? = some lb → asks.head? = some la → lb.price < la.price)
    (hlv : ∀ L ∈ asks, ∀ o ∈ L.orders, o.live)
    (hI : inc.incOK) (hside : inc.side = Side.BUY) :
    (∀ lb la, bids.head? = some lb →
      (moLoop asks idx ntid inc []).ladder.head? = some la → lb.price < la.price) ∧
    ((moLoop asks idx ntid inc []).inc.remaining_qty ≠ 0 → inc.type = OrderType.LIMIT →
      ∀ lb la, (bidsInsert (moLoop asks idx ntid inc []).inc bids).head? = some lb →
        (moLoop asks idx ntid inc []).ladder.head? = some la → lb.price < la.price) := by
  have hA : ∀ lb la, bids.head? = some lb →
      (moLoop asks idx ntid inc []).ladder.head? = some la → lb.price < la.price := by
    intro lb la hlb hla
    obtain ⟨k, hk⟩ := moLoop_prices_suffix asks idx ntid inc []
    have hla2 : ((moLoop asks idx ntid inc []).ladder.map PriceLevel.price).head? =
        some la.price := by
      rw [List.head?_map, hla]
      rfl
    have hsub : List.Sublist ((moLoop asks idx ntid inc []).ladder.map PriceLevel.price)
        (asks.map PriceLevel.price) := by
      rw [hk]
      exact List.drop_sublist _ _
    cases hao : asks.head? with
    | none =>
      rw [List.head?_eq_none_iff] at hao
      subst hao
      simp [moLoop] at hla2
    | some a0 =>
      have h0 : (asks.map PriceLevel.price).head? = some a0.price := by
        rw [List.head?_map, hao]
        rfl
      exact lt_of_lt_of_le (hu lb a0 hlb hao)
        (asks_head_le _ _ hsa hsub _ _ hla2 h0)
  refine ⟨hA, ?_⟩
  intro hrem htype lb la hlb hla
  rcases moLoop_exit asks idx ntid inc [] hlv hI with he | he | ⟨lvl, rest2, heq, hnc⟩
  · rw [he] at hla
    cases hla
  · exact absurd he hrem
  · have hlvla : la = lvl := by
      rw [heq] at hla
      simpa using hla.symm
    subst hlvla
    have hlt : inc.price < la.price := by
      unfold crossable at hnc
      push_neg at hnc
      simp only [hside] at hnc
      exact not_le.mp hnc.2
    obtain ⟨f1, f2, f3, f4, f5⟩ := moLoop_inc_fields asks idx ntid inc []
    cases bids with
    | nil =>
      simp only [bidsInsert, List.head?_cons, Option.some_inj] at hlb
      rw [← hlb]
      show (moLoop asks idx ntid inc []).inc.price < la.price
      rw [f4]
      exact hlt
    | cons b0 brest =>
      obtain ⟨Lh, r2, heq2, hLp⟩ :=
        bidsInsert_cons_head (moLoop asks idx ntid inc []).inc b0 brest
      rw [heq2] at hlb
      simp only [List.head?_cons, Option.some_inj] at hlb
      rw [← hlb, hLp, f4]
      exact max_lt hlt (hA b0 la rfl hla)

theorem uncrossed_sell_post (bids asks : List PriceLevel) (idx : List IndexEntry)
    (ntid : Nat) (inc : Order)
    (hsb : List.Chain' (· > ·) (bids.map PriceLevel.price))
    (hu : ∀ lb la, bids.head? = some lb → asks.head? = some la → lb.price < la.price)
    (hlv : ∀ L ∈ bids, ∀ o ∈ L.orders, o.live)
    (hI : inc.incOK) (hside : inc.side = Side.SELL) :
    (∀ lb la, (moLoop bids idx ntid inc []).ladder.head? = some lb →
      asks.head? = some la → lb.price < la.price) ∧
    ((moLoop bids idx ntid inc []).inc.remaining_qty ≠ 0 → inc.type = OrderType.LIMIT →
      ∀ lb la, (moLoop bids idx ntid inc []).ladder.head? = some lb →
        (asksInsert (moLoop bids idx ntid inc []).inc asks).head? = some la →
        lb.price < la.price) := by
  have hA : ∀ lb la, (moLoop bids idx ntid inc []).ladder.head? = some lb →
      asks.head? = some la → lb.price < la.price := by
    intro lb la hlb hla
    obtain ⟨k, hk⟩ := moLoop_prices_suffix bids idx ntid inc []
    have hlb2 : ((moLoop bids idx ntid inc []).ladder.map PriceLevel.price).head? =
        some lb.price := by
      rw [List.head?_map, hlb]
      rfl
    have hsub : List.Sublist ((moLoop bids idx ntid inc []).ladder.map PriceLevel.price)
        (bids.map PriceLevel.price) := by
      rw [hk]
      exact List.drop_sublist _ _
    cases hbo : bids.head? with
    | none =>
      rw [List.head?_eq_none_iff] at hbo
      subst hbo
      simp [moLoop] at hlb2
    | some b0 =>
      have h0 : (bids.map PriceLevel.price).head? = some b0.price := by
        rw [List.head?_map, hbo]
        rfl
      exact lt_of_le_of_lt (bids_head_ge _ _ hsb hsub _ _ hlb2 h0) (hu b0 la hbo hla)
  refine ⟨hA, ?_⟩
  intro hrem htype lb la hlb hla
  rcases moLoop_exit bids idx ntid inc [] hlv hI with he | he | ⟨lvl, rest2, heq, hnc⟩
  · rw [he] at hlb
    cases hlb
  · exact absurd he hrem
  · have hlvlb : lb = lvl := by
      rw [heq] at hlb
      simpa using hlb.symm
    subst hlvlb
    have hlt : lb.price < inc.price := by
      unfold crossable at hnc
      push_neg at hnc
      simp only [hside] at hnc
      exact not_le.mp hnc.2
    obtain ⟨f1, f2, f3, f4, f5⟩ := moLoop_inc_fields bids idx ntid inc []
    cases asks with
    | nil =>
      simp only [asksInsert, List.head?_cons, Option.some_inj] at hla
      rw [← hla]
      show lb.price < (moLoop bids idx ntid inc []).inc.price
      rw [f4]
      exact hlt
    | cons a0 arest =>
      obtain ⟨Lh, r2, heq2, hLp⟩ :=
        asksInsert_cons_head (moLoop bids idx ntid inc []).inc a0 arest
      rw [heq2] at hla
      simp only [List.head?_cons, Option.some_inj] at hla
      rw [← hla, hLp, f4]
      exact lt_min hlt (hA lb a0 hlb rfl)

/-- C3: after every add_order, add_market_order or cancel_order call
returns, if both the bid and the ask ladder are non-empty then the best
bid is strictly below the best ask. -/
theorem C3_uncrossed_book (b : Book) (p : ℚ) (q : Nat) (s : Side) (ty : OrderType)
    (oid : Nat)
    (hsb : List.Chain' (· > ·) (b.bids.map PriceLevel.price))
    (hsa : List.Chain' (· < ·) (b.asks.map PriceLevel.price))
    (hu : b.uncrossed)
    (hlv : ∀ L ∈ b.bids ++ b.asks, ∀ o ∈ L.orders, o.live) :
    (b.add_order p q s ty).2.2.uncrossed ∧
    (b.add_market_order q s).2.uncrossed ∧
    (b.cancel_order oid).2.uncrossed := by
  have hlvb : ∀ L ∈ b.bids, ∀ o ∈ L.orders, o.live :=
    fun L hL => hlv L (List.mem_append_left _ hL)
  have hlva : ∀ L ∈ b.asks, ∀ o ∈ L.orders, o.live :=
    fun L hL => hlv L (List.mem_append_right _ hL)
  refine ⟨?_, ?_, ?_⟩
  · by_cases hr : q = 0 ∨ p < 0 ∨ (ty = OrderType.LIMIT ∧ p ≤ 0)
    · rw [add_order_rejected b p q s ty hr]
      exact hu
    obtain ⟨h1, h2, h3⟩ := accept_conds p q ty hr
    cases s
    · obtain ⟨hA, hB⟩ := uncrossed_buy_post b.bids b.asks b.index b.next_trade_id
        ⟨b.next_order_id, p, q, 0, Side.BUY, ty, OrderStatus.NEW⟩ hsa hu hlva
        (fresh_incOK _ _ _ _ _) rfl
      simp only [Book.add_order, if_neg h1, if_neg h2, if_neg h3]
      split
      · rename_i hcond
        intro lb la hlb hla
        exact hB (Nat.pos_iff_ne_zero.mp hcond.1) hcond.2.1 lb la hlb hla
      · intro lb la hlb hla
        exact hA lb la hlb hla
    · obtain ⟨hA, hB⟩ := uncrossed_sell_post b.bids b.asks b.index b.next_trade_id
        ⟨b.next_order_id, p, q, 0, Side.SELL, ty, OrderStatus.NEW⟩ hsb hu hlvb
        (fresh_incOK _ _ _ _ _) rfl
      simp only [Book.add_order, if_neg h1, if_neg h2, if_neg h3]
      split
      · rename_i hcond
        intro lb la hlb hla
        exact hB (Nat.pos_iff_ne_zero.mp hcond.1) hcond.2.1 lb la hlb hla
      · intro lb la hlb hla
        exact hA lb la hlb hla
  · by_cases hq : q = 0
    · rw [hq, add_market_order_zero b s]
      exact hu
    cases s
    · obtain ⟨hA, _⟩ := uncrossed_buy_post b.bids b.asks b.index b.next_trade_id
        ⟨b.next_order_id, 0, q, 0, Side.BUY, OrderType.MARKET, OrderStatus.NEW⟩ hsa hu hlva
        (fresh_incOK _ _ _ _ _) rfl
      simp only [Book.add_market_order, if_neg hq]
      intro lb la hlb hla
      exact hA lb la hlb hla
    · obtain ⟨hA, _⟩ := uncrossed_sell_post b.bids b.asks b.index b.next_trade_id
        ⟨b.next_order_id, 0, q, 0, Side.SELL, OrderType.MARKET, OrderStatus.NEW⟩ hsb hu hlvb
        (fresh_incOK _ _ _ _ _) rfl
      simp only [Book.add_market_order, if_neg hq]
      intro lb la hlb hla
      exact hA lb la hlb hla
  · rcases hf : indexFind b.index oid with _ | e
    · simp only [Book.cancel_order, hf]
      exact hu
    cases hes : e.side
    · simp only [Book.cancel_order, hf, hes]
      intro lb la hlb hla
      have hsub := ladderCancel_prices_sublist e.price oid b.bids
      have hlb2 : ((ladderCancel e.price oid b.bids).2.map PriceLevel.price).head? =
          some lb.price := by
        rw [List.head?_map, hlb]
        rfl
      cases hbo : b.bids.head? with
      | none =>
        rw [List.head?_eq_none_iff] at hbo
        rw [hbo] at hsub hlb2
        simp [ladderCancel] at hlb2
      | some b0 =>
        have h0 : (b.bids.map PriceLevel.price).head? = some b0.price := by
          rw [List.head?_map, hbo]
          rfl
        exact lt_of_le_of_lt (bids_head_ge _ _ hsb hsub _ _ hlb2 h0) (hu b0 la hbo hla)
    · simp only [Book.cancel_order, hf, hes]
      intro lb la hlb hla
      have hsub := ladderCancel_prices_sublist e.price oid b.asks
      have hla2 : ((ladderCancel e.price oid b.asks).2.map PriceLevel.price).head? =
          some la.price := by
        rw [List.head?_map, hla]
        rfl
      cases hao : b.asks.head? with
      | none =>
        rw [List.head?_eq_none_iff] at hao
        rw [hao] at hsub hla2
        simp [ladderCancel] at hla2
      | some a0 =>
        have h0 : (b.asks.map PriceLevel.price).head? = some a0.price := by
          rw [List.head?_map, hao]
          rfl
        exact lt_of_lt_of_le (hu lb a0 hlb hao) (asks_head_le _ _ hsa hsub _ _ hla2 h0)

/-- Witness for C3 at the fresh book. -/
theorem C3_witness :
    (Book.init.add_order 100 5 Side.BUY OrderType.LIMIT).2.2.uncrossed ∧
    (Book.init.add_market_order 5 Side.BUY).2.uncrossed ∧
    (Book.init.cancel_order 1).2.uncrossed :=
  C3_uncrossed_book Book.init 100 5 Side.BUY OrderType.LIMIT 1
    (by simp [Book.init]) (by simp [Book.init])
    (by intro lb la hlb hla; cases hlb)
    (by intro L hL; simp [Book.init] at hL)

/-- Witness for the amended C9 theorem at a concrete one-order level. -/
theorem C9_witness :
    (([⟨1, 100, 10, 3, Side.BUY, OrderType.LIMIT, OrderStatus.PARTIALLY_FILLED⟩] :
        List Order).map Order.order_id).Nodup ∧
    (((PriceLevel.remove_order
        ⟨100, 7, [⟨1, 100, 10, 3, Side.BUY, OrderType.LIMIT, OrderStatus.PARTIALLY_FILLED⟩]⟩
        1).1 = true ↔
      1 ∈ ([⟨1, 100, 10, 3, Side.BUY, OrderType.LIMIT, OrderStatus.PARTIALLY_FILLED⟩] :
        List Order).map Order.order_id) ∧
    (PriceLevel.remove_order
        ⟨100, 7, [⟨1, 100, 10, 3, Side.BUY, OrderType.LIMIT, OrderStatus.PARTIALLY_FILLED⟩]⟩
        1).2.orders =
      ([⟨1, 100, 10, 3, Side.BUY, OrderType.LIMIT, OrderStatus.PARTIALLY_FILLED⟩] :
        List Order).filter (fun o => o.order_id ≠ 1) ∧
    (PriceLevel.remove_order
        ⟨100, 7, [⟨1, 100, 10, 3, Side.BUY, OrderType.LIMIT, OrderStatus.PARTIALLY_FILLED⟩]⟩
        1).2.price = (100 : ℚ) ∧
    (1 ∉ ([⟨1, 100, 10, 3, Side.BUY, OrderType.LIMIT, OrderStatus.PARTIALLY_FILLED⟩] :
        List Order).map Order.order_id →
      PriceLevel.remove_order
        ⟨100, 7, [⟨1, 100, 10, 3, Side.BUY, OrderType.LIMIT, OrderStatus.PARTIALLY_FILLED⟩]⟩
        1 =
      (false,
       ⟨100, 7, [⟨1, 100, 10, 3, Side.BUY, OrderType.LIMIT, OrderStatus.PARTIALLY_FILLED⟩]⟩)) ∧
    (∀ o ∈ ([⟨1, 100, 10, 3, Side.BUY, OrderType.LIMIT, OrderStatus.PARTIALLY_FILLED⟩] :
        List Order), o.order_id = 1 →
      (PriceLevel.remove_order
        ⟨100, 7, [⟨1, 100, 10, 3, Side.BUY, OrderType.LIMIT, OrderStatus.PARTIALLY_FILLED⟩]⟩
        1).2.total_quantity = 7 - o.remaining_qty)) :=
  ⟨by decide,
   C9_remove_order
     ⟨100, 7, [⟨1, 100, 10, 3, Side.BUY, OrderType.LIMIT, OrderStatus.PARTIALLY_FILLED⟩]⟩
     1 (by decide)⟩
